import Mathlib

set_option maxRecDepth 20000
set_option maxHeartbeats 1000000

/-!
Verification of the command-shell core of the CLIportfolio repository.

The repository contains several small terminal applications.  The command
shell that the specification singles out lives in two variants:

* `src/file-picker/main.go` (second program in that file): the richer
  "Fred CLI" with hidden-path checks, autocomplete and a `qr`/`coinflip`/
  `yoda` command set.  It is embedded below in namespace `FP`.
* `src/Portfolio/main.go`: an earlier variant of the same shell without
  hidden-path checks and without autocomplete.  Embedded in namespace `PF`.

Go strings are modelled as lists of characters (`Str`).  All the string
operations the shell uses (`strings.HasPrefix`, `strings.Split`,
`strings.Join`, `strings.Fields`, `strings.ToLower`, byte slicing of
ASCII-prefixed commands) are given structural definitions so that every
concrete run can be evaluated by `decide`.  The relevant Go prefixes are
ASCII, so byte indexing (`inputValue[:3]`) and character indexing agree on
every input reaching those branches.

External collaborators (the real filesystem consulted through `os.Stat`,
`os.ReadDir`, `os.ReadFile`, the network calls, `lipgloss` style
rendering, `rand`, the clock and the Go runtime identifiers) are passed in
as an explicit `FS` record of oracle functions, exactly at the granularity
at which the Go code consumes them.
-/

/-- Go strings, modelled as lists of characters so that every operation is
structural and kernel-computable. -/
abbrev Str := List Char

/-- Models Go `strings.HasPrefix s p`. -/
def hasPre (s p : Str) : Bool := p.isPrefixOf s

/-- Models Go `strings.Split(s, "/")` (the only separator the shell splits on). -/
def splitSlash (s : Str) : List Str := s.splitOn '/'

/-- Models Go `strings.Join(xs, "/")`. -/
def joinSlash (xs : List Str) : Str := List.intercalate ['/'] xs

/-- ASCII lower-casing of one character, as Go `strings.ToLower` acts on the
ASCII command names and directory entries the autocomplete compares. -/
def lowerChar (c : Char) : Char :=
  if 65 ≤ c.toNat ∧ c.toNat ≤ 90 then Char.ofNat (c.toNat + 32) else c

/-- Models Go `strings.ToLower` on the ASCII data handled by the shell. -/
def goToLower (s : Str) : Str := s.map lowerChar

/-- Models Go `strings.Fields`: split around runs of whitespace. -/
def goFields (s : Str) : List Str :=
  (s.splitOnP Char.isWhitespace).filter (fun w => w ≠ [])

/-- Models Go `strings.Title` as applied to a single whitespace-free field
(the only way the shell calls it): upper-case the first character. -/
def goTitleWord (w : Str) : Str :=
  match w with
  | [] => []
  | c :: cs => (if 97 ≤ c.toNat ∧ c.toNat ≤ 122 then Char.ofNat (c.toNat - 32) else c) :: cs

/-- A directory entry as surfaced by the `os.ReadDir` collaborator. -/
structure DirEntry where
  name : Str
  isDir : Bool
deriving DecidableEq

/-- The collaborator oracles consumed by the shell: filesystem, network,
style rendering, randomness, clock and runtime identifiers.  The shell only
ever observes them through these functions, so a value of `FS` fixes one
deterministic environment for a run. -/
structure FS where
  /-- `validatePath` = `os.Stat(path)` succeeding with `IsDir()`.  NB the real
  `os.Stat` resolves `.` and `..` segments of its argument against the disk. -/
  statIsDir : Str → Bool
  /-- `os.ReadDir`; an error carries the formatted error text. -/
  readDir : Str → Except Str (List DirEntry)
  /-- `os.ReadFile`; an error carries the formatted error text. -/
  readFile : Str → Except Str Str
  /-- `gowiki.Summary(query, 5, -1, false, true)`. -/
  wikiSummary : Str → Except Str Str
  /-- Net outcome of the `joke` HTTP fetch + JSON decode: the final string the
  handler assigns to `m.text` (joke text or formatted error text). -/
  jokeResult : Str
  /-- `time.Now().Format("2006-01-02")`. -/
  dateStr : Str
  /-- `runtime.Version()`. -/
  goVersion : Str
  /-- `runtime.GOOS`. -/
  goosStr : Str
  /-- `runtime.GOARCH`. -/
  goarchStr : Str
  /-- `qrterminal.Generate` output captured in the string builder. -/
  qrRender : Str → Str
  /-- `rand.Float64() < 0.5` for `coinflip`. -/
  coin : Bool
  /-- `rand.Intn(len(yodaisms))` for the `yoda` ending. -/
  yodaEnd : Fin 4
  /-- `headerView()`: the lipgloss-rendered ASCII banner constant. -/
  headerBanner : Str
  /-- `folderStyle.Render` (lipgloss, pastel green). -/
  renderFolder : Str → Str
  /-- `fileStyle.Render` (lipgloss, pastel purple). -/
  renderFile : Str → Str
  /-- The lipgloss-rendered `neofetch` ASCII art, a constant template
  formatted with `runtime.GOARCH` / `runtime.GOOS`. -/
  neofetchText : Str

/-- The mutable session state of the shell (`model` in the Go sources),
restricted to the fields the command core reads or writes.  The viewport
objects are pure render-surface collaborators and carry no command state. -/
structure Model where
  /-- `m.input.Value()`: the textinput buffer. -/
  inputValue : Str
  startingpath : Str
  directory : Str
  text : Str
  /-- `m.history`: the submitted command lines. -/
  history : List Str
  /-- `m.historyIndex`: `-1` means not browsing history. -/
  historyIndex : Int
  /-- `m.clihistory`: the transcript of rendered output blocks. -/
  clihistory : List Str
  /-- `m.fileViewMode`: pager mode active. -/
  fileViewMode : Bool
  /-- `m.fileContent`: pager snapshot. -/
  fileContent : Str
  /-- `tea.Quit` has been returned. -/
  quitting : Bool
deriving DecidableEq

/-- Models `m.input.Reset()`: clear the textinput buffer. -/
def resetInput (m : Model) : Model := { m with inputValue := [] }

/-- Input events of one session: a submitted line (the user edits the buffer
and presses enter), the history-recall keys, and the pager dismiss key
(`esc`, which the textinput ignores in normal mode). -/
inductive Ev where
  | submit (line : Str)
  | up
  | down
  | esc
deriving DecidableEq


/-- Message string literals of the Go sources, named so that proof goals stay
compact.  Each is the exact literal from the corresponding branch. -/
def errReadDirMsg : Str := "Error reading directory: ".data

/-- `"\nName\n------\n"` header of the `ls` listing. -/
def nameHeaderMsg : Str := "\nName\n------\n".data

/-- Hidden-directory denial (file-picker variant `cd`). -/
def hiddenDirDeniedMsg : Str := "Access denied: Hidden directories are not accessible".data

/-- Hidden-file denial (file-picker variant `cat`). -/
def hiddenFileDeniedMsg : Str := "Access denied: Hidden files are not accessible".data

/-- `"Error reading file: "` prefix. -/
def errReadFileMsg : Str := "Error reading file: ".data

/-- Empty `wiki` query message. -/
def searchTermMsg : Str := "Please provide a search term.".data

/-- `"Error fetching Wikipedia summary: "` prefix. -/
def errWikiMsg : Str := "Error fetching Wikipedia summary: ".data

/-- `pwd` output prefix. -/
def curDirMsg : Str := "Current directory: ".data

/-- `whoami` output. -/
def curUserMsg : Str := "Current user: guest".data

/-- `date` output prefix. -/
def curDateMsg : Str := "Current date: ".data

/-- `echo` output prefix. -/
def echoMsg : Str := "Echoing: ".data

/-- `version` output infix (the typo is in the source). -/
def versonMsg : Str := " verson 1.0.0, built with Go ".data

/-- `version` output infix. -/
def onMsg : Str := " on ".data

/-- `qr` output prefix. -/
def qrMsg : Str := "QR code for: ".data

/-- `coinflip` outputs. -/
def headsMsg : Str := " Result: Heads".data

/-- `coinflip` outputs. -/
def tailsMsg : Str := " Result: Tails".data

/-- `yoda` output prefix. -/
def yodaSaysMsg : Str := "Yoda says: ".data

/-- `cd` failure prefix. -/
def invalidDirMsg : Str := "Invalid directory: ".data

/-- Unknown-command fallback suffix. -/
def notValidMsg : Str := " is not a valid command, try running help for commands".data

namespace FP

/-- `helpText` of the file-picker variant (string constant from the source;
apostrophes written as escapes). -/
def helpText : Str :=
  ("Available Commands:\n===================\n\nNavigation:\n  pwd        - Show current directory\n  ls         - List files and directories\n  cd <dir>   - Change directory (use \x27..\x27 to go up)\n  cat <file> - View file contents in pager mode\n\nSystem Info:\n  whoami     - Show current user\n  date       - Show current date\n  version    - Show CLI version and build info\n  neofetch   - Display system information with ASCII art\n\nPortfolio:\n  skills     - Show my technical skills\n  contact    - Show contact information\n  qr <text>  - Generate QR code for text\n  coinflip   - Flip a coin (heads or tails)\nUtilities:\n  echo <text> - Echo back the provided text\n  joke        - Get a random dad joke\n  wiki <term> - Search Wikipedia for a term\n  clear       - Clear the terminal output\n  help        - Show this help message\n  exit        - Exit the CLI\n\nNavigation Tips:\n  - Use up/down arrows to browse command history\n  - Use Page Up/Page Down to navigate viewport\n  - Press \x27q\x27 or \x27esc\x27 to exit file viewer\n  - Use \x27cd ..\x27 to go to parent directory\n\nExamples:\n  cd Portfolio   - Navigate to Portfolio directory\n  cat README.md  - View README file\n  wiki golang    - Search Wikipedia for \x27golang\x27\n  echo Hello!    - Display \x27Hello!\x27").data

/-- `skills` output (string constant from the source). -/
def skillsText : Str :=
  ("\nSkills:\n================\n• Go Programming\n• Terminal/CLI Development\n• Web Development\n• Game Development\n• GDscript (Godot programming language)\n• LLMS (Large Language Models)\n").data

/-- `contact` output (string constant from the source). -/
def contactText : Str :=
  ("You can find me on:\n- GitHub:   github.com/ItsHotdogFred\n- Itch.io:  itshotdogfred.itch.io\n- Email:    cli@itsfred.dev").data

/-- The welcome banner block of `initialModel` (string constant from the
source; apostrophes written as escapes). -/
def welcomeText : Str :=
  ("Welcome to Fred\x27s Portfolio CLI!\n\nNavigation:\n• Use scroll wheel or arrow keys to browse command history\n• Use Page Up/Page Down to navigate viewport\n• Type \x27help\x27 to see all available commands\n\nGet started with \x27ls\x27 to explore or \x27help\x27 for guidance.").data

/-- `m.commandautocomplete` as set by `initialModel`. -/
def commandautocomplete : List Str :=
  ["help".data, "ls".data, "pwd".data, "cd".data, "cat".data, "whoami".data,
   "date".data, "version".data, "neofetch".data, "skills".data, "contact".data,
   "qr".data, "coinflip".data, "echo".data, "joke".data, "wiki".data,
   "clear".data, "exit".data, "yoda".data]

/-- `initialModel` of the file-picker variant. -/
def initialModel (fs : FS) : Model where
  inputValue := []
  startingpath := ".".data
  directory := ".".data
  text := "nothing yet...".data
  history := []
  historyIndex := -1
  clihistory := [fs.headerBanner, welcomeText]
  fileViewMode := false
  fileContent := []
  quitting := false

/-- The `cd ` branch of the enter handler (lines 362-384 of the source file).
`m.text` has already been set to the submitted line. -/
def cdBranch (fs : FS) (m : Model) : Model :=
  if m.text ≠ [] ∧ m.text ≠ "nothing yet...".data then
    let dirToAdd := m.text.drop 3
    if dirToAdd = "..".data then
      let parts := splitSlash m.directory
      if parts.length > 1 then
        { m with directory := joinSlash parts.dropLast }
      else
        { m with directory := m.startingpath }
    else
      if hasPre dirToAdd (".".data) then
        { m with text := hiddenDirDeniedMsg }
      else if fs.statIsDir (m.directory ++ "/".data ++ dirToAdd) then
        { m with directory := m.directory ++ "/".data ++ dirToAdd }
      else
        { m with text := invalidDirMsg ++ dirToAdd }
  else m

/-- One iteration of the `ls` listing loop (lines 399-408): hidden entries
are skipped, directories and files are styled and each takes one line. -/
def lsLine (fs : FS) (s : Str) (e : DirEntry) : Str :=
  if ¬ hasPre e.name (".".data) then
    s ++ (if e.isDir then fs.renderFolder ("📁 ".data ++ e.name)
          else fs.renderFile ("📄 ".data ++ e.name)) ++ "\n".data
  else s

/-- The body of the `ls` listing loop: fold `lsLine` over the entries. -/
def lsBody (fs : FS) (entries : List DirEntry) : Str :=
  entries.foldl (lsLine fs) []

/-- The `ls` branch (lines 386-410).  On a `ReadDir` error the error line is
prepended and the loop runs over no entries (the slice is nil). -/
def lsBranch (fs : FS) (m : Model) : Model :=
  match fs.readDir m.directory with
  | .error e =>
      { m with text := errReadDirMsg ++ e ++ "\n".data
                        ++ nameHeaderMsg }
  | .ok entries =>
      { m with text := nameHeaderMsg ++ lsBody fs entries }

/-- The `yoda ` transformation (lines 606-635), parametrised by the random
ending pick. -/
def yodaisms : List Str :=
  [", mmm.".data, ", yes.".data, ", hmm.".data, ", indeed.".data]

/-- Yoda-transform of the text after the `yoda ` prefix. -/
def yodaTransform (fs : FS) (text : Str) : Str :=
  let words := goFields text
  if words.length < 2 then
    text ++ ", mmm.".data
  else
    let result :=
      if words.length ≥ 2 ∧ goToLower (words.getD 0 []) = "i".data
          ∧ goToLower (words.getD 1 []) = "am".data then
        [goTitleWord (words.getD 1 []), goToLower (words.getD 0 [])] ++ words.drop 2
      else if words.length ≥ 3 then
        [words.getD (words.length - 1) []] ++ words.dropLast
      else words
    let ending := yodaisms.getD (fs.yodaEnd : Nat) []
    List.intercalate [' '] result ++ ending

/-- Result of one pass through the `case "enter":` if/else chain.  `broke`
records that a Go `break` statement ended the `case` body early (skipping the
transcript append at lines 641-644); `quit` records `return m, tea.Quit`. -/
structure ChainOut where
  m : Model
  broke : Bool
  quit : Bool

/-- Branches `cd `, `ls`, `help`, `clear`, `cat ` of the file-picker
`case "enter":` if/else chain (lines 362-478), in source order.  `line` is
the submitted `inputValue`; `m` already carries `text := line`, the appended
history and the reset cursor. -/
def chain1 (fs : FS) (line : Str) (m : Model) (rest : ChainOut) : ChainOut :=
  if line.length ≥ 3 ∧ line.take 3 = "cd ".data then
    ⟨resetInput (cdBranch fs m), false, false⟩
  else if line = "ls".data then
    ⟨resetInput (lsBranch fs m), false, false⟩
  else if line = "help".data then
    ⟨{ m with text := helpText, inputValue := [] }, false, false⟩
  else if line = "clear".data then
    ⟨{ m with clihistory := [fs.headerBanner], inputValue := [] }, true, false⟩
  else if line.length ≥ 4 ∧ line.take 4 = "cat ".data then
    let filename := line.drop 4
    if hasPre filename (".".data) then
      ⟨{ m with text := hiddenFileDeniedMsg, inputValue := [] }, true, false⟩
    else
      match fs.readFile (m.directory ++ "/".data ++ filename) with
      | .error e =>
          ⟨{ m with text := errReadFileMsg ++ e, inputValue := [] }, true, false⟩
      | .ok content =>
          ⟨{ m with fileContent := content, fileViewMode := true, inputValue := [] },
            false, false⟩
  else rest

/-- Branches `joke`, `wiki `, `pwd`, `exit`, `whoami` (lines 479-533). -/
def chain2 (fs : FS) (line : Str) (m : Model) (rest : ChainOut) : ChainOut :=
  if line = "joke".data then
    ⟨{ m with text := fs.jokeResult, inputValue := [] }, false, false⟩
  else if line.length ≥ 5 ∧ line.take 5 = "wiki ".data then
    let query := line.drop 5
    if query = [] then
      ⟨{ m with text := searchTermMsg, inputValue := [] }, false, false⟩
    else
      match fs.wikiSummary query with
      | .error e =>
          ⟨{ m with text := errWikiMsg ++ e, inputValue := [] }, false, false⟩
      | .ok r =>
          ⟨{ m with text := "\n".data ++ r, inputValue := [] }, false, false⟩
  else if line = "pwd".data then
    ⟨{ m with text := curDirMsg ++ m.directory, inputValue := [] }, false, false⟩
  else if line = "exit".data then
    ⟨m, false, true⟩
  else if line = "whoami".data then
    ⟨{ m with text := curUserMsg, inputValue := [] }, false, false⟩
  else rest

/-- Branches `date`, `echo `, `neofetch`, `version`, `skills` (lines 534-586). -/
def chain3 (fs : FS) (line : Str) (m : Model) (rest : ChainOut) : ChainOut :=
  if line = "date".data then
    ⟨{ m with text := curDateMsg ++ fs.dateStr, inputValue := [] }, false, false⟩
  else if line.length ≥ 5 ∧ line.take 5 = "echo ".data then
    ⟨{ m with text := echoMsg ++ line.drop 5, inputValue := [] }, false, false⟩
  else if line = "neofetch".data then
    ⟨{ m with text := fs.neofetchText, inputValue := [] }, false, false⟩
  else if line = "version".data then
    ⟨{ m with text := m.text ++ versonMsg ++ fs.goVersion
                    ++ onMsg ++ fs.goosStr ++ "/".data ++ fs.goarchStr,
              inputValue := [] }, false, false⟩
  else if line = "skills".data then
    ⟨{ m with text := skillsText, inputValue := [] }, false, false⟩
  else rest

/-- Branches `contact`, `qr `, `coinflip`, `yoda `, and the unknown-command
fallback (lines 587-640). -/
def chain4 (fs : FS) (line : Str) (m : Model) : ChainOut :=
  if line = "contact".data then
    ⟨{ m with text := contactText, inputValue := [] }, false, false⟩
  else if line.length ≥ 3 ∧ line.take 3 = "qr ".data then
    ⟨{ m with text := qrMsg ++ line.drop 3 ++ "\n\n".data
                    ++ fs.qrRender (line.drop 3),
              inputValue := [] }, false, false⟩
  else if line = "coinflip".data then
    ⟨{ m with text := m.text ++ (if fs.coin then headsMsg
                                 else tailsMsg),
              inputValue := [] }, false, false⟩
  else if line.length ≥ 5 ∧ line.take 5 = "yoda ".data then
    ⟨{ m with text := yodaSaysMsg ++ yodaTransform fs (line.drop 5),
              inputValue := [] }, false, false⟩
  else
    ⟨{ m with text := m.text ++ notValidMsg,
              inputValue := [] }, false, false⟩

/-- The full `case "enter":` if/else chain of the file-picker variant
(lines 356-640): set `text`, append the line to the history, reset the
cursor, then dispatch through the four branch groups in source order. -/
def enterChain (fs : FS) (m0 : Model) : ChainOut :=
  let line := m0.inputValue
  let m := { m0 with text := line, history := m0.history ++ [line], historyIndex := -1 }
  chain1 fs line m (chain2 fs line m (chain3 fs line m (chain4 fs line m)))

/-- The enter handler: runs the chain and then, unless a `break` skipped it or
`tea.Quit` was returned, appends `m.text` to the transcript when the line is
not `clear` (lines 641-644). -/
def onEnter (fs : FS) (m : Model) : Model :=
  let line := m.inputValue
  let r := enterChain fs m
  if r.quit then { r.m with quitting := true }
  else if r.broke then r.m
  else if line ≠ "clear".data then
    { r.m with clihistory := r.m.clihistory ++ [r.m.text] }
  else r.m

/-- The `case "up", "ctrl+p":` history recall (lines 731-741). -/
def onUp (m : Model) : Model :=
  if m.history.length > 0 then
    let idx :=
      if m.historyIndex = -1 then 0
      else if m.historyIndex < (m.history.length : Int) - 1 then m.historyIndex + 1
      else m.historyIndex
    { m with historyIndex := idx,
             inputValue := m.history.getD ((m.history.length : Int) - 1 - idx).toNat [] }
  else m

/-- The `case "down", "ctrl+n":` history recall (lines 743-756). -/
def onDown (m : Model) : Model :=
  if m.history.length > 0 then
    let m1 :=
      if m.historyIndex > 0 then { m with historyIndex := m.historyIndex - 1 }
      else if m.historyIndex = 0 then { m with historyIndex := -1, inputValue := [] }
      else m
    if m1.historyIndex ≥ 0 then
      { m1 with inputValue :=
          m1.history.getD ((m1.history.length : Int) - 1 - m1.historyIndex).toNat [] }
    else m1
  else m

/-- One input event.  When `fileViewMode` is set the key is routed to the
pager viewport only (lines 322-345), so the command state is untouched except
that `q`/`esc` leaves the pager. -/
def step (fs : FS) (m : Model) : Ev → Model
  | .submit line =>
      if m.fileViewMode then m
      else onEnter fs { m with inputValue := line }
  | .up => if m.fileViewMode then m else onUp m
  | .down => if m.fileViewMode then m else onDown m
  | .esc =>
      if m.fileViewMode then
        { m with fileViewMode := false, fileContent := [] }
      else m

/-- A whole session: fold the events over the state. -/
def run (fs : FS) (m : Model) (evs : List Ev) : Model := evs.foldl (step fs) m

/-- One comparison step of the autocomplete loop (lines 679-711): the body
executed when `option` prefix-matches and a best match already exists. -/
def matchStep (fileautocomplete : List Str) (best option : Str) : Str :=
  let isCurrentFile := fileautocomplete.contains option
  let isBestFile := fileautocomplete.contains best
  if isCurrentFile ∧ ¬ isBestFile then option
  else if isCurrentFile ∧ isBestFile ∧ option.length < best.length then option
  else if ¬ isCurrentFile ∧ ¬ isBestFile ∧ option.length < best.length then option
  else best

/-- The prefix test of the autocomplete loop (line 678):
`strings.HasPrefix(strings.ToLower(option), strings.ToLower(currentWord))`. -/
def cMatches (currentWord option : Str) : Bool :=
  hasPre (goToLower option) (goToLower currentWord)

/-- One full iteration of the candidate scan (lines 676-713): on a prefix
match, take the option when no best match exists yet, otherwise compare via
`matchStep`. -/
def selStep (fileautocomplete : List Str) (currentWord best option : Str) : Str :=
  if cMatches currentWord option then
    if best = [] then option else matchStep fileautocomplete best option
  else best

/-- The full candidate scan of the `tab` handler (lines 676-713): fold over
`autocompletelist`. -/
def bestMatchFor (autocompletelist fileautocomplete : List Str) (currentWord : Str) : Str :=
  autocompletelist.foldl (selStep fileautocomplete currentWord) []

/-- The `case "tab":` handler (lines 647-729): build the candidate list from
the command names and the non-hidden current-directory entries, complete the
final whitespace-separated token of the input. -/
def onTab (fs : FS) (m : Model) : Model :=
  if m.inputValue = [] then m
  else
    let entries := match fs.readDir m.directory with
      | .error _ => []
      | .ok es => es
    let fileautocomplete :=
      (entries.filter (fun e => ¬ hasPre e.name (".".data))).map (fun e => e.name)
    let autocompletelist := commandautocomplete ++ fileautocomplete
    let words := goFields m.inputValue
    if words.length = 0 then m
    else
      let currentWord := words.getD (words.length - 1) []
      let bestMatch := bestMatchFor autocompletelist fileautocomplete currentWord
      if bestMatch ≠ [] then
        if words.length = 1 then { m with inputValue := bestMatch }
        else { m with inputValue := List.intercalate [' '] (words.dropLast ++ [bestMatch]) }
      else m

end FP

namespace PF

/-- `helpText` of the Portfolio variant (string constant from the source;
apostrophes written as escapes). -/
def helpText : Str :=
  ("Available Commands:\n===================\n\nNavigation:\n  pwd          - Show current directory\n  ls           - List files and directories\n  cd <dir>     - Change directory (use \x27..\x27 to go up)\n  cat <file>   - View file contents in pager mode\n\nSystem Info:\n  whoami       - Show current user\n  date         - Show current date\n  version      - Show CLI version and build info\n  neofetch     - Display system information with ASCII art\n\nPortfolio:\n  skills       - Show my technical skills\n  contact      - Show contact information\n\nUtilities:\n  echo <text>  - Echo back the provided text\n  joke         - Get a random dad joke\n  wiki <term>  - Search Wikipedia for a term\n  clear        - Clear the terminal output\n  help         - Show this help message\n  exit         - Exit the CLI\n\nNavigation Tips:\n  - Use up/down arrows to browse command history\n  - Press \x27q\x27 or \x27esc\x27 to exit file viewer\n  - Use \x27cd ..\x27 to go to parent directory\n\nExamples:\n  cd Portfolio     - Navigate to Portfolio directory\n  cat README.md    - View README file\n  wiki golang      - Search Wikipedia for \x27golang\x27\n  echo Hello!      - Display \x27Hello!\x27").data

/-- `skills` output of the Portfolio variant. -/
def skillsText : Str :=
  ("\nSkills:\n================\n• Go Programming \n• Terminal/CLI Development\n• Web Development \n• Game Development\n• GDscript (Godot programming language)\n• LLMS (Large Language Models)\n").data

/-- `contact` output of the Portfolio variant. -/
def contactText : Str :=
  ("You can find me on:\n- GitHub:   github.com/ItsHotdogFred\n- Itch.io:  itshotdogfred.itch.io\n- Email:    cli@itsfred.dev").data

/-- `initialModel` of the Portfolio variant. -/
def initialModel : Model where
  inputValue := []
  startingpath := ".".data
  directory := ".".data
  text := "nothing yet...".data
  history := []
  historyIndex := -1
  clihistory := ["Welcome to Fred\x27s Portfolio CLI! Type \x27help\x27 for commands.".data]
  fileViewMode := false
  fileContent := []
  quitting := false

/-- The `cd ` branch of the Portfolio variant (lines 190-211): like the
file-picker variant but WITHOUT the hidden-directory check. -/
def cdBranch (fs : FS) (m : Model) : Model :=
  if m.text ≠ [] ∧ m.text ≠ "nothing yet...".data then
    let dirToAdd := m.text.drop 3
    if dirToAdd = "..".data then
      let parts := splitSlash m.directory
      if parts.length > 1 then
        { m with directory := joinSlash parts.dropLast }
      else
        { m with directory := m.startingpath }
    else
      if fs.statIsDir (m.directory ++ "/".data ++ dirToAdd) then
        { m with directory := m.directory ++ "/".data ++ dirToAdd }
      else
        { m with text := invalidDirMsg ++ dirToAdd }
  else m

/-- The `ls` branch of the Portfolio variant (lines 213-225): every entry is
printed, hidden ones included, with no styling. -/
def lsBranch (fs : FS) (m : Model) : Model :=
  match fs.readDir m.directory with
  | .error e =>
      { m with text := errReadDirMsg ++ e ++ "\n".data
                        ++ nameHeaderMsg }
  | .ok entries =>
      { m with text := nameHeaderMsg
                        ++ entries.foldl (fun s e => s ++ e.name ++ "\n".data) [] }

/-- Result of one pass through the Portfolio `case "enter":` chain. -/
structure ChainOut where
  m : Model
  broke : Bool
  quit : Bool

/-- Branches `cd `, `ls`, `help`, `clear`, `cat ` of the Portfolio
`case "enter":` chain (lines 190-285): no hidden check on `cd` or `cat`. -/
def chain1 (fs : FS) (line : Str) (m : Model) (rest : ChainOut) : ChainOut :=
  if line.length ≥ 3 ∧ line.take 3 = "cd ".data then
    ⟨resetInput (cdBranch fs m), false, false⟩
  else if line = "ls".data then
    ⟨resetInput (lsBranch fs m), false, false⟩
  else if line = "help".data then
    ⟨{ m with text := helpText, inputValue := [] }, false, false⟩
  else if line = "clear".data then
    ⟨{ m with clihistory := [], inputValue := [] }, true, false⟩
  else if line.length ≥ 4 ∧ line.take 4 = "cat ".data then
    match fs.readFile (m.directory ++ "/".data ++ line.drop 4) with
    | .error e =>
        ⟨{ m with text := errReadFileMsg ++ e, inputValue := [] }, true, false⟩
    | .ok content =>
        ⟨{ m with fileContent := content, fileViewMode := true, inputValue := [] },
          false, false⟩
  else rest

/-- Branches `joke`, `wiki `, `pwd`, `exit`, `whoami` (lines 286-340); note
`wiki` computes its query as `inputValue[4:]`. -/
def chain2 (fs : FS) (line : Str) (m : Model) (rest : ChainOut) : ChainOut :=
  if line = "joke".data then
    ⟨{ m with text := fs.jokeResult, inputValue := [] }, false, false⟩
  else if line.length ≥ 5 ∧ line.take 5 = "wiki ".data then
    let query := line.drop 4
    if query = [] then
      ⟨{ m with text := searchTermMsg, inputValue := [] }, false, false⟩
    else
      match fs.wikiSummary query with
      | .error e =>
          ⟨{ m with text := errWikiMsg ++ e, inputValue := [] }, false, false⟩
      | .ok r =>
          ⟨{ m with text := "\n".data ++ r, inputValue := [] }, false, false⟩
  else if line = "pwd".data then
    ⟨{ m with text := curDirMsg ++ m.directory, inputValue := [] }, false, false⟩
  else if line = "exit".data then
    ⟨m, false, true⟩
  else if line = "whoami".data then
    ⟨{ m with text := curUserMsg, inputValue := [] }, false, false⟩
  else rest

/-- Branches `date`, `echo `, `neofetch`, `version`, `skills`, `contact` and
the unknown-command fallback (lines 341-400). -/
def chain3 (fs : FS) (line : Str) (m : Model) : ChainOut :=
  if line = "date".data then
    ⟨{ m with text := curDateMsg ++ fs.dateStr, inputValue := [] }, false, false⟩
  else if line.length ≥ 5 ∧ line.take 5 = "echo ".data then
    ⟨{ m with text := echoMsg ++ line.drop 5, inputValue := [] }, false, false⟩
  else if line = "neofetch".data then
    ⟨{ m with text := fs.neofetchText, inputValue := [] }, false, false⟩
  else if line = "version".data then
    ⟨{ m with text := m.text ++ versonMsg ++ fs.goVersion
                    ++ onMsg ++ fs.goosStr ++ "/".data ++ fs.goarchStr,
              inputValue := [] }, false, false⟩
  else if line = "skills".data then
    ⟨{ m with text := skillsText, inputValue := [] }, false, false⟩
  else if line = "contact".data then
    ⟨{ m with text := contactText, inputValue := [] }, false, false⟩
  else
    ⟨{ m with text := m.text ++ notValidMsg,
              inputValue := [] }, false, false⟩

/-- The full `case "enter":` chain of the Portfolio variant (lines 184-400). -/
def enterChain (fs : FS) (m0 : Model) : ChainOut :=
  let line := m0.inputValue
  let m := { m0 with text := line, history := m0.history ++ [line], historyIndex := -1 }
  chain1 fs line m (chain2 fs line m (chain3 fs line m))

/-- The Portfolio enter handler with the conditional transcript append
(lines 401-404). -/
def onEnter (fs : FS) (m : Model) : Model :=
  let line := m.inputValue
  let r := enterChain fs m
  if r.quit then { r.m with quitting := true }
  else if r.broke then r.m
  else if line ≠ "clear".data then
    { r.m with clihistory := r.m.clihistory ++ [r.m.text] }
  else r.m

/-- The `case "up", "ctrl+p":` history recall (lines 434-443). -/
def onUp (m : Model) : Model :=
  if m.history.length > 0 then
    let idx :=
      if m.historyIndex = -1 then 0
      else if m.historyIndex < (m.history.length : Int) - 1 then m.historyIndex + 1
      else m.historyIndex
    { m with historyIndex := idx,
             inputValue := m.history.getD ((m.history.length : Int) - 1 - idx).toNat [] }
  else m

/-- The `case "down", "ctrl+n":` history recall (lines 444-454). -/
def onDown (m : Model) : Model :=
  if m.history.length > 0 then
    if m.historyIndex > 0 then
      let idx := m.historyIndex - 1
      { m with historyIndex := idx,
               inputValue := m.history.getD ((m.history.length : Int) - 1 - idx).toNat [] }
    else if m.historyIndex = 0 then
      { m with historyIndex := -1, inputValue := [] }
    else m
  else m

/-- One input event of the Portfolio variant (pager routing as in
lines 150-172). -/
def step (fs : FS) (m : Model) : Ev → Model
  | .submit line =>
      if m.fileViewMode then m
      else onEnter fs { m with inputValue := line }
  | .up => if m.fileViewMode then m else onUp m
  | .down => if m.fileViewMode then m else onDown m
  | .esc =>
      if m.fileViewMode then
        { m with fileViewMode := false, fileContent := [] }
      else m

/-- A whole Portfolio session. -/
def run (fs : FS) (m : Model) (evs : List Ev) : Model := evs.foldl (step fs) m

end PF

/-- One step of POSIX-style resolution of a relative path: skip `.` and empty
segments, let `..` pop the last kept segment or, with nothing left to pop,
climb one level above the starting directory. -/
def resolveStep (acc : Nat × List Str) (seg : Str) : Nat × List Str :=
  if seg = ".".data ∨ seg = [] then acc
  else if seg = "..".data then
    match acc.2 with
    | [] => (acc.1 + 1, [])
    | _ :: rest => (acc.1, rest)
  else (acc.1, seg :: acc.2)

/-- Resolve the `/`-separated segments of a path: the number of levels the
path climbs above its starting directory, and the segment stack (most recent
first) below that point. -/
def resolvePath (p : Str) : Nat × List Str :=
  (splitSlash p).foldl resolveStep (0, [])

/-- The session paths are relative to the sandbox root `.`; a path resolves
to a strict ancestor of the root exactly when resolution climbs above the
root and ends there. -/
def resolvesToAncestor (p : Str) : Bool :=
  (resolvePath p).1 > 0 ∧ (resolvePath p).2 = []

/-- A fixed benign collaborator environment used to instantiate theorems at
concrete inputs: the backing store is empty and the network collaborators
echo their query. -/
def emptyFS : FS where
  statIsDir := fun _ => false
  readDir := fun _ => .error ("no such directory".data)
  readFile := fun _ => .error ("no such file".data)
  wikiSummary := fun q => .ok q
  jokeResult := []
  dateStr := "2026-10-11".data
  goVersion := "go1.24.0".data
  goosStr := "linux".data
  goarchStr := "amd64".data
  qrRender := fun _ => []
  coin := true
  yodaEnd := 0
  headerBanner := "FRED CLI".data
  renderFolder := fun s => s
  renderFile := fun s => s
  neofetchText := "neofetch".data

/-- The history-recall invariant: the cursor stays between the "not
browsing" sentinel `-1` and `length - 1`, and while browsing the input
buffer holds `history[length - 1 - cursor]`. -/
def HistInv (m : Model) : Prop :=
  -1 ≤ m.historyIndex
  ∧ m.historyIndex < (m.history.length : Int)
  ∧ (m.historyIndex ≠ -1 →
      m.inputValue = m.history.getD ((m.history.length : Int) - 1 - m.historyIndex).toNat [])

/-- Environment for the cat-success scenario: exactly one readable file. -/
def fsReadme : FS :=
  { emptyFS with
      readFile := fun p =>
        if p = "./README.md".data then Except.ok ("hello".data)
        else Except.error ("no such file".data) }

/-- Environment with a single subdirectory `docs` under the root. -/
def fsDocs : FS :=
  { emptyFS with statIsDir := fun s => s = "./docs".data }

/-- Environment with a hidden directory and a hidden file, as a real disk
would report them to `os.Stat`/`os.ReadFile`. -/
def fsHiddenPF : FS :=
  { emptyFS with
      statIsDir := fun s => s = "./.hidden".data,
      readFile := fun p =>
        if p = "./.env".data then Except.ok ("SECRET".data)
        else Except.error ("no such file".data) }

/-- Environment on which `os.Stat` reports `./foo/../../..` as an existing
directory — exactly what a real disk answers whenever the process runs at
depth ≥ 2 and `foo` exists, since `os.Stat` resolves `..` segments. -/
def fsEscape : FS :=
  { emptyFS with statIsDir := fun s => s = "./foo/../../..".data }

/-- A path segment that navigation can append: no separator inside and not
the parent marker, so resolution never climbs past it. -/
def GoodSeg (s : Str) : Prop := '/' ∉ s ∧ s ≠ "..".data

/-- The session-directory shape maintained by the sandbox: the root marker
`.` followed by climb-free segments. -/
def GoodDir (d : Str) : Prop :=
  ∃ rest : List Str, d = joinSlash (".".data :: rest) ∧ ∀ s ∈ rest, GoodSeg s

/-- Environment whose root listing holds two visible entries and one hidden
one. -/
def fsLs : FS :=
  { emptyFS with
      readDir := fun p =>
        if p = ".".data then
          Except.ok [⟨"README.md".data, false⟩, ⟨".git".data, true⟩, ⟨"src".data, true⟩]
        else Except.error ("no such directory".data) }

/-- The running invariant of the autocomplete scan over the processed prefix
`seen` of the candidate list: either nothing matched yet, or `best` is a
matching candidate that is file-preferred and shortest in its category. -/
def SelOut (files : List Str) (w : Str) (seen : List Str) (best : Str) : Prop :=
  (best = [] ∧ ∀ o ∈ seen, FP.cMatches w o = false)
  ∨ (best ∈ seen ∧ FP.cMatches w best = true
     ∧ (files.contains best = true →
          ∀ o ∈ seen, FP.cMatches w o = true → files.contains o = true →
            best.length ≤ o.length)
     ∧ (files.contains best = false →
          (∀ o ∈ seen, FP.cMatches w o = true → files.contains o = false)
          ∧ ∀ o ∈ seen, FP.cMatches w o = true → best.length ≤ o.length))

/-! ## Theorems -/

/-! ### Generic helper lemmas -/

theorem ne_of_take_ne {a b : Str} (n : Nat) (h : a.take n ≠ b.take n) : a ≠ b :=
  fun e => h (e ▸ rfl)

/-! ### Frame lemmas: which state fields each branch group leaves alone -/

theorem FP.cdBranch_keeps (fs : FS) (m : Model) :
    (FP.cdBranch fs m).startingpath = m.startingpath
    ∧ (FP.cdBranch fs m).historyIndex = m.historyIndex
    ∧ (FP.cdBranch fs m).history = m.history
    ∧ (FP.cdBranch fs m).fileViewMode = m.fileViewMode
    ∧ (FP.cdBranch fs m).clihistory = m.clihistory
    ∧ (FP.cdBranch fs m).quitting = m.quitting
    ∧ (FP.cdBranch fs m).inputValue = m.inputValue := by
  dsimp only [FP.cdBranch]
  repeat' split
  all_goals exact ⟨rfl, rfl, rfl, rfl, rfl, rfl, rfl⟩

theorem FP.lsBranch_keeps (fs : FS) (m : Model) :
    (FP.lsBranch fs m).directory = m.directory
    ∧ (FP.lsBranch fs m).startingpath = m.startingpath
    ∧ (FP.lsBranch fs m).historyIndex = m.historyIndex
    ∧ (FP.lsBranch fs m).history = m.history
    ∧ (FP.lsBranch fs m).fileViewMode = m.fileViewMode
    ∧ (FP.lsBranch fs m).clihistory = m.clihistory
    ∧ (FP.lsBranch fs m).quitting = m.quitting := by
  dsimp only [FP.lsBranch]
  repeat' split
  all_goals exact ⟨rfl, rfl, rfl, rfl, rfl, rfl, rfl⟩

theorem FP.chain1_keeps (fs : FS) (line : Str) (m : Model) (r : FP.ChainOut)
    (h : r.m.startingpath = m.startingpath ∧ r.m.historyIndex = m.historyIndex
         ∧ r.m.history = m.history) :
    (FP.chain1 fs line m r).m.startingpath = m.startingpath
    ∧ (FP.chain1 fs line m r).m.historyIndex = m.historyIndex
    ∧ (FP.chain1 fs line m r).m.history = m.history := by
  dsimp only [FP.chain1, resetInput]
  repeat' split
  all_goals
    first
      | exact h
      | exact ⟨rfl, rfl, rfl⟩
      | exact ⟨(FP.cdBranch_keeps fs m).1, (FP.cdBranch_keeps fs m).2.1,
               (FP.cdBranch_keeps fs m).2.2.1⟩
      | exact ⟨(FP.lsBranch_keeps fs m).2.1, (FP.lsBranch_keeps fs m).2.2.1,
               (FP.lsBranch_keeps fs m).2.2.2.1⟩

theorem FP.chain2_keeps (fs : FS) (line : Str) (m : Model) (r : FP.ChainOut)
    (h : r.m.startingpath = m.startingpath ∧ r.m.historyIndex = m.historyIndex
         ∧ r.m.history = m.history ∧ r.m.directory = m.directory) :
    (FP.chain2 fs line m r).m.startingpath = m.startingpath
    ∧ (FP.chain2 fs line m r).m.historyIndex = m.historyIndex
    ∧ (FP.chain2 fs line m r).m.history = m.history
    ∧ (FP.chain2 fs line m r).m.directory = m.directory := by
  dsimp only [FP.chain2]
  repeat' split
  all_goals first | exact h | exact ⟨rfl, rfl, rfl, rfl⟩

theorem FP.chain3_keeps (fs : FS) (line : Str) (m : Model) (r : FP.ChainOut)
    (h : r.m.startingpath = m.startingpath ∧ r.m.historyIndex = m.historyIndex
         ∧ r.m.history = m.history ∧ r.m.directory = m.directory) :
    (FP.chain3 fs line m r).m.startingpath = m.startingpath
    ∧ (FP.chain3 fs line m r).m.historyIndex = m.historyIndex
    ∧ (FP.chain3 fs line m r).m.history = m.history
    ∧ (FP.chain3 fs line m r).m.directory = m.directory := by
  dsimp only [FP.chain3]
  repeat' split
  all_goals first | exact h | exact ⟨rfl, rfl, rfl, rfl⟩

theorem FP.chain4_keeps (fs : FS) (line : Str) (m : Model) :
    (FP.chain4 fs line m).m.startingpath = m.startingpath
    ∧ (FP.chain4 fs line m).m.historyIndex = m.historyIndex
    ∧ (FP.chain4 fs line m).m.history = m.history
    ∧ (FP.chain4 fs line m).m.directory = m.directory := by
  dsimp only [FP.chain4]
  repeat' split
  all_goals exact ⟨rfl, rfl, rfl, rfl⟩

theorem FP.enterChain_cursor (fs : FS) (m : Model) :
    (FP.enterChain fs m).m.historyIndex = -1
    ∧ (FP.enterChain fs m).m.history = m.history ++ [m.inputValue]
    ∧ (FP.enterChain fs m).m.startingpath = m.startingpath := by
  dsimp only [FP.enterChain]
  have h4 := FP.chain4_keeps fs m.inputValue
    { m with text := m.inputValue, history := m.history ++ [m.inputValue], historyIndex := -1 }
  have h3 := FP.chain3_keeps fs m.inputValue
    { m with text := m.inputValue, history := m.history ++ [m.inputValue], historyIndex := -1 }
    _ ⟨h4.1, h4.2.1, h4.2.2.1, h4.2.2.2⟩
  have h2 := FP.chain2_keeps fs m.inputValue
    { m with text := m.inputValue, history := m.history ++ [m.inputValue], historyIndex := -1 }
    _ ⟨h3.1, h3.2.1, h3.2.2.1, h3.2.2.2⟩
  have h1 := FP.chain1_keeps fs m.inputValue
    { m with text := m.inputValue, history := m.history ++ [m.inputValue], historyIndex := -1 }
    _ ⟨h2.1, h2.2.1, h2.2.2.1⟩
  exact ⟨h1.2.1, h1.2.2, h1.1⟩

theorem FP.onEnter_cursor (fs : FS) (m : Model) :
    (FP.onEnter fs m).historyIndex = -1
    ∧ (FP.onEnter fs m).history = m.history ++ [m.inputValue] := by
  have h := FP.enterChain_cursor fs m
  dsimp only [FP.onEnter]
  split
  · exact ⟨h.1, h.2.1⟩
  · split
    · exact ⟨h.1, h.2.1⟩
    · split
      · exact ⟨h.1, h.2.1⟩
      · exact ⟨h.1, h.2.1⟩

/-! ### History recall invariant (C4 machinery) -/

theorem FP.onUp_keeps (m : Model) :
    (FP.onUp m).history = m.history
    ∧ (FP.onUp m).directory = m.directory
    ∧ (FP.onUp m).startingpath = m.startingpath
    ∧ (FP.onUp m).clihistory = m.clihistory
    ∧ (FP.onUp m).fileViewMode = m.fileViewMode := by
  dsimp only [FP.onUp]
  repeat' split
  all_goals exact ⟨rfl, rfl, rfl, rfl, rfl⟩

theorem FP.onDown_keeps (m : Model) :
    (FP.onDown m).history = m.history
    ∧ (FP.onDown m).directory = m.directory
    ∧ (FP.onDown m).startingpath = m.startingpath
    ∧ (FP.onDown m).clihistory = m.clihistory
    ∧ (FP.onDown m).fileViewMode = m.fileViewMode := by
  dsimp only [FP.onDown]
  repeat' split
  all_goals exact ⟨rfl, rfl, rfl, rfl, rfl⟩

theorem FP.onUp_histInv (m : Model) (h : HistInv m) : HistInv (FP.onUp m) := by
  obtain ⟨h1, h2, h3⟩ := h
  dsimp only [HistInv, FP.onUp]
  split
  · rename_i hlen
    refine ⟨?_, ?_, fun _ => rfl⟩ <;>
      · dsimp only
        split
        · omega
        · split <;> omega
  · exact ⟨h1, h2, h3⟩

theorem FP.onDown_histInv (m : Model) (h : HistInv m) : HistInv (FP.onDown m) := by
  obtain ⟨h1, h2, h3⟩ := h
  dsimp only [HistInv, FP.onDown]
  by_cases hl : m.history.length > 0
  · rw [if_pos hl]
    by_cases hp : m.historyIndex > 0
    · simp only [if_pos hp]
      try dsimp only
      by_cases hge : m.historyIndex - 1 ≥ 0
      · rw [if_pos hge]
        exact ⟨by dsimp only; omega, by dsimp only; omega, fun _ => rfl⟩
      · exact absurd (by omega) hge
    · rw [if_neg hp]
      by_cases hz : m.historyIndex = 0
      · simp only [if_pos hz]
        try dsimp only
        rw [if_neg (by omega)]
        exact ⟨show (-1 : Int) ≤ -1 by omega,
               show (-1 : Int) < (m.history.length : Int) by omega,
               fun hne => absurd rfl hne⟩
      · simp only [if_neg hz]
        rw [if_neg (by omega)]
        exact ⟨h1, h2, h3⟩
  · rw [if_neg hl]
    exact ⟨h1, h2, h3⟩

theorem FP.step_histInv (fs : FS) (m : Model) (e : Ev) (h : HistInv m) :
    HistInv (FP.step fs m e) := by
  cases e with
  | submit line =>
      dsimp only [FP.step]
      split
      · exact h
      · have hc := FP.onEnter_cursor fs { m with inputValue := line }
        refine ⟨?_, ?_, ?_⟩
        · rw [hc.1]
        · rw [hc.1]; omega
        · intro hne; rw [hc.1] at hne; exact absurd rfl hne
  | up =>
      dsimp only [FP.step]
      split
      · exact h
      · exact FP.onUp_histInv m h
  | down =>
      dsimp only [FP.step]
      split
      · exact h
      · exact FP.onDown_histInv m h
  | esc =>
      dsimp only [FP.step]
      split
      · exact h
      · exact h

theorem PF.cdBranch_keepsP (fs : FS) (m : Model) :
    (PF.cdBranch fs m).startingpath = m.startingpath
    ∧ (PF.cdBranch fs m).historyIndex = m.historyIndex
    ∧ (PF.cdBranch fs m).history = m.history := by
  dsimp only [PF.cdBranch]
  repeat' split
  all_goals exact ⟨rfl, rfl, rfl⟩

theorem PF.lsBranch_keepsP (fs : FS) (m : Model) :
    (PF.lsBranch fs m).startingpath = m.startingpath
    ∧ (PF.lsBranch fs m).historyIndex = m.historyIndex
    ∧ (PF.lsBranch fs m).history = m.history := by
  dsimp only [PF.lsBranch]
  repeat' split
  all_goals exact ⟨rfl, rfl, rfl⟩

theorem PF.chain1_keepsP (fs : FS) (line : Str) (m : Model) (r : PF.ChainOut)
    (h : r.m.startingpath = m.startingpath ∧ r.m.historyIndex = m.historyIndex
         ∧ r.m.history = m.history) :
    (PF.chain1 fs line m r).m.startingpath = m.startingpath
    ∧ (PF.chain1 fs line m r).m.historyIndex = m.historyIndex
    ∧ (PF.chain1 fs line m r).m.history = m.history := by
  dsimp only [PF.chain1, resetInput]
  repeat' split
  all_goals
    first
      | exact h
      | exact ⟨rfl, rfl, rfl⟩
      | exact PF.cdBranch_keepsP fs m
      | exact PF.lsBranch_keepsP fs m

theorem PF.chain2_keepsP (fs : FS) (line : Str) (m : Model) (r : PF.ChainOut)
    (h : r.m.startingpath = m.startingpath ∧ r.m.historyIndex = m.historyIndex
         ∧ r.m.history = m.history) :
    (PF.chain2 fs line m r).m.startingpath = m.startingpath
    ∧ (PF.chain2 fs line m r).m.historyIndex = m.historyIndex
    ∧ (PF.chain2 fs line m r).m.history = m.history := by
  dsimp only [PF.chain2]
  repeat' split
  all_goals first | exact h | exact ⟨rfl, rfl, rfl⟩

theorem PF.chain3_keepsP (fs : FS) (line : Str) (m : Model) :
    (PF.chain3 fs line m).m.startingpath = m.startingpath
    ∧ (PF.chain3 fs line m).m.historyIndex = m.historyIndex
    ∧ (PF.chain3 fs line m).m.history = m.history := by
  dsimp only [PF.chain3]
  repeat' split
  all_goals exact ⟨rfl, rfl, rfl⟩

theorem PF.enterChain_cursorP (fs : FS) (m : Model) :
    (PF.enterChain fs m).m.historyIndex = -1
    ∧ (PF.enterChain fs m).m.history = m.history ++ [m.inputValue]
    ∧ (PF.enterChain fs m).m.startingpath = m.startingpath := by
  dsimp only [PF.enterChain]
  have h3 := PF.chain3_keepsP fs m.inputValue
    { m with text := m.inputValue, history := m.history ++ [m.inputValue], historyIndex := -1 }
  have h2 := PF.chain2_keepsP fs m.inputValue
    { m with text := m.inputValue, history := m.history ++ [m.inputValue], historyIndex := -1 }
    _ h3
  have h1 := PF.chain1_keepsP fs m.inputValue
    { m with text := m.inputValue, history := m.history ++ [m.inputValue], historyIndex := -1 }
    _ h2
  exact ⟨h1.2.1, h1.2.2, h1.1⟩

theorem PF.onEnter_cursorP (fs : FS) (m : Model) :
    (PF.onEnter fs m).historyIndex = -1
    ∧ (PF.onEnter fs m).history = m.history ++ [m.inputValue] := by
  have h := PF.enterChain_cursorP fs m
  dsimp only [PF.onEnter]
  split
  · exact ⟨h.1, h.2.1⟩
  · split
    · exact ⟨h.1, h.2.1⟩
    · split
      · exact ⟨h.1, h.2.1⟩
      · exact ⟨h.1, h.2.1⟩

theorem PF.onUp_keepsP (m : Model) :
    (PF.onUp m).history = m.history := by
  dsimp only [PF.onUp]
  repeat' split
  all_goals rfl

theorem PF.onDown_keepsP (m : Model) :
    (PF.onDown m).history = m.history := by
  dsimp only [PF.onDown]
  repeat' split
  all_goals rfl

theorem PF.onUp_histInvP (m : Model) (h : HistInv m) : HistInv (PF.onUp m) := by
  obtain ⟨h1, h2, h3⟩ := h
  dsimp only [HistInv, PF.onUp]
  split
  · rename_i hlen
    refine ⟨?_, ?_, fun _ => rfl⟩ <;>
      · dsimp only
        split
        · omega
        · split <;> omega
  · exact ⟨h1, h2, h3⟩

theorem PF.onDown_histInvP (m : Model) (h : HistInv m) : HistInv (PF.onDown m) := by
  obtain ⟨h1, h2, h3⟩ := h
  dsimp only [HistInv, PF.onDown]
  by_cases hl : m.history.length > 0
  · rw [if_pos hl]
    by_cases hp : m.historyIndex > 0
    · simp only [if_pos hp]
      refine ⟨?_, ?_, ?_⟩
      · try dsimp only
        omega
      · try dsimp only
        omega
      · first
          | exact fun _ => rfl
          | exact fun _ => trivial
    · rw [if_neg hp]
      by_cases hz : m.historyIndex = 0
      · simp only [if_pos hz]
        refine ⟨?_, ?_, ?_⟩
        · exact show (-1 : Int) ≤ -1 by omega
        · exact show (-1 : Int) < (m.history.length : Int) by omega
        · exact fun hne => absurd rfl hne
      · simp only [if_neg hz]
        exact ⟨h1, h2, h3⟩
  · rw [if_neg hl]
    exact ⟨h1, h2, h3⟩

theorem PF.step_histInvP (fs : FS) (m : Model) (e : Ev) (h : HistInv m) :
    HistInv (PF.step fs m e) := by
  cases e with
  | submit line =>
      dsimp only [PF.step]
      split
      · exact h
      · have hc := PF.onEnter_cursorP fs { m with inputValue := line }
        refine ⟨?_, ?_, ?_⟩
        · rw [hc.1]
        · rw [hc.1]; omega
        · intro hne; rw [hc.1] at hne; exact absurd rfl hne
  | up =>
      dsimp only [PF.step]
      split
      · exact h
      · exact PF.onUp_histInvP m h
  | down =>
      dsimp only [PF.step]
      split
      · exact h
      · exact PF.onDown_histInvP m h
  | esc =>
      dsimp only [PF.step]
      split
      · exact h
      · exact h

theorem FP.run_histInv (fs : FS) (m : Model) (evs : List Ev) (h : HistInv m) :
    HistInv (FP.run fs m evs) := by
  induction evs generalizing m with
  | nil => exact h
  | cons e evs ih => exact ih _ (FP.step_histInv fs m e h)

theorem PF.run_histInvP (fs : FS) (m : Model) (evs : List Ev) (h : HistInv m) :
    HistInv (PF.run fs m evs) := by
  induction evs generalizing m with
  | nil => exact h
  | cons e evs ih => exact ih _ (PF.step_histInvP fs m e h)

/-- C4: in both shell variants, over every event sequence (submitted lines,
up/down recall steps, pager dismissals) from the initial session state, the
history cursor stays between the "not browsing" sentinel `-1` and
`length - 1`; whenever the cursor is not `-1` the input buffer holds
`commandHistory[len - 1 - cursor]`; and the recall handlers never mutate the
history list of any state. -/
theorem c4_history_recall :
    (∀ (fs : FS) (evs : List Ev), HistInv (FP.run fs (FP.initialModel fs) evs))
    ∧ (∀ (fs : FS) (evs : List Ev), HistInv (PF.run fs PF.initialModel evs))
    ∧ (∀ m : Model,
        (FP.onUp m).history = m.history ∧ (FP.onDown m).history = m.history
        ∧ (PF.onUp m).history = m.history ∧ (PF.onDown m).history = m.history) := by
  refine ⟨fun fs evs => ?_, fun fs evs => ?_, fun m => ?_⟩
  · exact FP.run_histInv fs _ evs
      ⟨show (-1 : Int) ≤ -1 by decide,
       show (-1 : Int) < ((([] : List Str).length : Nat) : Int) by decide,
       fun hne => absurd rfl hne⟩
  · exact PF.run_histInvP fs _ evs
      ⟨show (-1 : Int) ≤ -1 by decide,
       show (-1 : Int) < ((([] : List Str).length : Nat) : Int) by decide,
       fun hne => absurd rfl hne⟩
  · exact ⟨(FP.onUp_keeps m).1, (FP.onDown_keeps m).1, PF.onUp_keepsP m, PF.onDown_keepsP m⟩

/-- C8: executing `clear` from any normal-mode state resets the transcript no
matter how long it was: the file-picker variant retains exactly the banner
(length 1) and the Portfolio variant empties it (length 0); in particular the
`clear` line itself is never appended. -/
theorem c8_clear (fs : FS) (m : Model) (h : m.fileViewMode = false) :
    ((FP.step fs m (.submit ("clear".data))).clihistory = [fs.headerBanner]
      ∧ (FP.step fs m (.submit ("clear".data))).clihistory.length = 1)
    ∧ ((PF.step fs m (.submit ("clear".data))).clihistory = []
      ∧ (PF.step fs m (.submit ("clear".data))).clihistory.length = 0) := by
  refine ⟨⟨?_, ?_⟩, ⟨?_, ?_⟩⟩ <;>
    · simp only [FP.step, PF.step, h, Bool.false_eq_true, if_false]
      rfl

/-- C8 witness: the `clear` theorem applied to the initial file-picker state. -/
theorem c8_clear_witness :
    (FP.initialModel emptyFS).fileViewMode = false
    ∧ (FP.step emptyFS (FP.initialModel emptyFS) (.submit ("clear".data))).clihistory
        = [emptyFS.headerBanner]
    ∧ (PF.step emptyFS PF.initialModel (.submit ("clear".data))).clihistory = [] :=
  ⟨rfl, ((c8_clear emptyFS (FP.initialModel emptyFS) rfl).1).1,
    ((c8_clear emptyFS PF.initialModel rfl).2).1⟩

/-- C5 counterexample: submitting the empty line from the initial file-picker
state IS dispatched to the unknown-command fallback: `m.text` becomes the
fallback message and that error block is appended to the transcript, refuting
the claim that the empty line is a no-op-producing valid command. -/
theorem c5_counterexample :
    (FP.run emptyFS (FP.initialModel emptyFS) [.submit []]).text = notValidMsg
    ∧ (FP.run emptyFS (FP.initialModel emptyFS) [.submit []]).clihistory
        = (FP.initialModel emptyFS).clihistory ++ [notValidMsg] := by
  constructor <;> decide

/-- C5 amended: the parser indeed performs no implicit trimming, but an empty
(or whitespace-led) line falls through every branch to the unknown-command
fallback, which appends the raw line followed by the fixed rejection message
to the transcript. -/
theorem c5_amended (fs : FS) (m : Model) (h : m.fileViewMode = false) :
    ((FP.step fs m (.submit [])).text = notValidMsg
      ∧ (FP.step fs m (.submit [])).clihistory = m.clihistory ++ [notValidMsg])
    ∧ ((FP.step fs m (.submit (" ls".data))).text = " ls".data ++ notValidMsg
      ∧ (FP.step fs m (.submit (" ls".data))).clihistory
          = m.clihistory ++ [" ls".data ++ notValidMsg]) := by
  refine ⟨⟨?_, ?_⟩, ⟨?_, ?_⟩⟩ <;>
    · simp only [FP.step, h, Bool.false_eq_true, if_false]
      rfl

/-- C5 amended witness: the fallback behaviour of the empty line at the
initial state. -/
theorem c5_amended_witness :
    (FP.initialModel emptyFS).fileViewMode = false
    ∧ (FP.step emptyFS (FP.initialModel emptyFS) (.submit [])).text = notValidMsg :=
  ⟨rfl, ((c5_amended emptyFS (FP.initialModel emptyFS) rfl).1).1⟩

/-- C6: the Portfolio variant slices the `wiki` argument as `inputValue[4:]`
even though the prefix `wiki ` is five bytes long (its own comment says "Get
everything after wiki"), so with the Wikipedia collaborator echoing its
query, `wiki golang` hands the handler `" golang"` (leading space kept); the
file-picker variant of the same command hands over `"golang"`. -/
theorem c6_wiki_arg_bug :
    (PF.run emptyFS PF.initialModel [.submit ("wiki golang".data)]).text
      = "\n golang".data
    ∧ (FP.run emptyFS (FP.initialModel emptyFS) [.submit ("wiki golang".data)]).text
      = "\ngolang".data := by
  constructor <;> decide

/-- C7: `cat missing.txt` with a failing read stays out of pager mode and the
session keeps processing commands, but the Go `break` jumps past the
transcript append, so the computed error block is never appended: the
transcript is unchanged (zero new blocks, not one). -/
theorem c7_cat_failure_bug :
    (FP.run emptyFS (FP.initialModel emptyFS)
        [.submit ("cat missing.txt".data)]).fileViewMode = false
    ∧ (FP.run emptyFS (FP.initialModel emptyFS)
        [.submit ("cat missing.txt".data)]).clihistory
        = (FP.initialModel emptyFS).clihistory
    ∧ (FP.run emptyFS (FP.initialModel emptyFS)
        [.submit ("cat missing.txt".data)]).text
        = errReadFileMsg ++ "no such file".data
    ∧ (FP.run emptyFS (FP.initialModel emptyFS)
        [.submit ("cat missing.txt".data), .submit ("pwd".data)]).clihistory
        = (FP.initialModel emptyFS).clihistory ++ [curDirMsg ++ ".".data] := by
  refine ⟨?_, ?_, ?_, ?_⟩ <;> decide

/-! ### Symbolic prefix-command reasoning helpers -/

theorem cat_take3 (f : Str) : ("cat ".data ++ f).take 3 = "cat".data := by
  rw [List.take_append_of_le_length (by decide)]
  decide

theorem cat_take4 (f : Str) : ("cat ".data ++ f).take 4 = "cat ".data := by
  rw [List.take_append_of_le_length (by decide)]
  decide

theorem cat_drop4 (f : Str) : ("cat ".data ++ f).drop 4 = f :=
  List.drop_left' rfl

theorem cat_len4 (f : Str) : ("cat ".data ++ f).length ≥ 4 := by
  rw [List.length_append, show ("cat ".data).length = 4 from by decide]
  omega

theorem cat_ne_ls (f : Str) : "cat ".data ++ f ≠ "ls".data :=
  ne_of_take_ne 3 (by rw [cat_take3]; decide)

theorem cat_ne_help (f : Str) : "cat ".data ++ f ≠ "help".data :=
  ne_of_take_ne 3 (by rw [cat_take3]; decide)

theorem cat_ne_clear (f : Str) : "cat ".data ++ f ≠ "clear".data :=
  ne_of_take_ne 3 (by rw [cat_take3]; decide)

theorem cat_not_cd (f : Str) :
    ¬(("cat ".data ++ f).length ≥ 3 ∧ ("cat ".data ++ f).take 3 = "cd ".data) := by
  rintro ⟨-, h⟩
  rw [cat_take3] at h
  exact absurd h (by decide)

/-- C10: a successful `cat <file>` (file not hidden, read succeeds) enters
pager mode with the file content as the snapshot, and still appends exactly
one block to the transcript — the raw submitted line itself, not the file
contents or a success message. -/
theorem c10_cat_success (fs : FS) (m : Model) (filename content : Str)
    (hpm : m.fileViewMode = false)
    (hhid : hasPre filename (".".data) = false)
    (hread : fs.readFile (m.directory ++ "/".data ++ filename) = Except.ok content) :
    (FP.step fs m (.submit ("cat ".data ++ filename))).fileViewMode = true
    ∧ (FP.step fs m (.submit ("cat ".data ++ filename))).fileContent = content
    ∧ (FP.step fs m (.submit ("cat ".data ++ filename))).clihistory
        = m.clihistory ++ ["cat ".data ++ filename] := by
  have hcat : ("cat ".data ++ filename).length ≥ 4
      ∧ ("cat ".data ++ filename).take 4 = "cat ".data :=
    ⟨cat_len4 filename, cat_take4 filename⟩
  have hnothid : ¬(hasPre (("cat ".data ++ filename).drop 4) ".".data = true) := by
    rw [cat_drop4, hhid]
    decide
  simp only [FP.step, hpm, Bool.false_eq_true, if_false]
  dsimp only [FP.onEnter, FP.enterChain, FP.chain1]
  rw [if_neg (cat_not_cd filename), if_neg (cat_ne_ls filename),
      if_neg (cat_ne_help filename), if_neg (cat_ne_clear filename),
      if_pos hcat, if_neg hnothid, cat_drop4]
  try dsimp only
  rw [hread]
  try dsimp only
  rw [if_neg (show ¬((false : Bool) = true) by decide),
      if_neg (show ¬((false : Bool) = true) by decide),
      if_pos (cat_ne_clear filename)]
  exact ⟨rfl, rfl, rfl⟩

/-- C10 witness: the cat-success theorem at a concrete environment holding
`README.md` with content `hello`. -/
theorem c10_cat_success_witness :
    ((FP.initialModel fsReadme).fileViewMode = false
      ∧ hasPre ("README.md".data) (".".data) = false
      ∧ fsReadme.readFile ((FP.initialModel fsReadme).directory ++ "/".data
          ++ "README.md".data) = Except.ok ("hello".data))
    ∧ (FP.step fsReadme (FP.initialModel fsReadme)
        (.submit ("cat ".data ++ "README.md".data))).fileViewMode = true
    ∧ (FP.step fsReadme (FP.initialModel fsReadme)
        (.submit ("cat ".data ++ "README.md".data))).clihistory
        = (FP.initialModel fsReadme).clihistory ++ ["cat ".data ++ "README.md".data] :=
  ⟨⟨rfl, by decide, by rfl⟩,
   (c10_cat_success fsReadme (FP.initialModel fsReadme) ("README.md".data)
      ("hello".data) rfl (by decide) (by rfl)).1,
   (c10_cat_success fsReadme (FP.initialModel fsReadme) ("README.md".data)
      ("hello".data) rfl (by decide) (by rfl)).2.2⟩

/-! ### C2 helpers: symbolic `cd ` lines -/

theorem cd_take3 (t : Str) : ("cd ".data ++ t).take 3 = "cd ".data := by
  rw [List.take_append_of_le_length (by decide)]
  decide

theorem cd_drop3 (t : Str) : ("cd ".data ++ t).drop 3 = t :=
  List.drop_left' rfl

theorem cd_len3 (t : Str) : ("cd ".data ++ t).length ≥ 3 := by
  rw [List.length_append, show ("cd ".data).length = 3 from by decide]
  omega

theorem cd_ne_nil (t : Str) : "cd ".data ++ t ≠ [] := by
  intro h
  have := congrArg List.length h
  rw [List.length_append] at this
  simp at this

theorem cd_ne_nothing (t : Str) : "cd ".data ++ t ≠ "nothing yet...".data :=
  ne_of_take_ne 3 (by rw [cd_take3]; decide)

theorem cd_ne_clear (t : Str) : "cd ".data ++ t ≠ "clear".data :=
  ne_of_take_ne 3 (by rw [cd_take3]; decide)

/-- C2 counterexample: the claim fails on the code in three ways.  In the
file-picker variant the target `..` — which does start with `.` — is not
denied: from `./docs` it changes the directory back to the root and `m.text`
stays the echoed line, not a denial.  And the Portfolio variant has no hidden
check at all: `cd .hidden` navigates into a hidden directory and
`cat .env` pages a hidden file. -/
theorem c2_counterexample :
    ((FP.run fsDocs (FP.initialModel fsDocs)
        [.submit ("cd docs".data)]).directory = "./docs".data
      ∧ (FP.run fsDocs (FP.initialModel fsDocs)
        [.submit ("cd docs".data), .submit ("cd ..".data)]).directory = ".".data
      ∧ (FP.run fsDocs (FP.initialModel fsDocs)
        [.submit ("cd docs".data), .submit ("cd ..".data)]).text = "cd ..".data)
    ∧ (PF.run fsHiddenPF PF.initialModel
        [.submit ("cd .hidden".data)]).directory = "./.hidden".data
    ∧ ((PF.run fsHiddenPF PF.initialModel
        [.submit ("cat .env".data)]).fileViewMode = true
      ∧ (PF.run fsHiddenPF PF.initialModel
        [.submit ("cat .env".data)]).fileContent = "SECRET".data) := by
  refine ⟨⟨?_, ?_, ?_⟩, ?_, ?_, ?_⟩ <;> decide

/-- The `cd` branch on a dot-prefixed target other than `..`: the hidden
check fires and only `m.text` changes. -/
theorem FP.cdBranch_hidden (fs : FS) (m : Model) (target : Str)
    (htext : m.text = "cd ".data ++ target)
    (hdot : hasPre target (".".data) = true) (hne : target ≠ "..".data) :
    FP.cdBranch fs m = { m with text := hiddenDirDeniedMsg } := by
  dsimp only [FP.cdBranch]
  rw [htext, cd_drop3, if_pos ⟨cd_ne_nil target, cd_ne_nothing target⟩,
      if_neg hne, if_pos hdot]

/-- C2 amended: in the file-picker variant, for every target that starts
with `.`: unless it is the literal `..` — which pops a segment instead —
`cd` rejects it with the hidden-directory denial and leaves the current
directory unchanged (the denial block is appended to the transcript); and
`cat` of ANY dot-prefixed name, the literal `..` included, is denied without
entering pager mode (the `break` skips the transcript append).  The
Portfolio variant performs no hidden check. -/
theorem c2_amended (fs : FS) (m : Model) (target : Str)
    (hpm : m.fileViewMode = false)
    (hdot : hasPre target (".".data) = true) :
    (target ≠ "..".data →
      (FP.step fs m (.submit ("cd ".data ++ target))).directory = m.directory
      ∧ (FP.step fs m (.submit ("cd ".data ++ target))).text = hiddenDirDeniedMsg
      ∧ (FP.step fs m (.submit ("cd ".data ++ target))).clihistory
          = m.clihistory ++ [hiddenDirDeniedMsg])
    ∧ ((FP.step fs m (.submit ("cat ".data ++ target))).fileViewMode = false
      ∧ (FP.step fs m (.submit ("cat ".data ++ target))).text = hiddenFileDeniedMsg
      ∧ (FP.step fs m (.submit ("cat ".data ++ target))).clihistory = m.clihistory) := by
  constructor
  · intro hne
    have hcd : ("cd ".data ++ target).length ≥ 3
        ∧ ("cd ".data ++ target).take 3 = "cd ".data :=
      ⟨cd_len3 target, cd_take3 target⟩
    simp only [FP.step, hpm, Bool.false_eq_true, if_false]
    dsimp only [FP.onEnter, FP.enterChain, FP.chain1]
    rw [if_pos hcd, FP.cdBranch_hidden fs _ target rfl hdot hne]
    dsimp only [resetInput]
    rw [if_neg (show ¬((false : Bool) = true) by decide),
        if_neg (show ¬((false : Bool) = true) by decide),
        if_pos (cd_ne_clear target)]
    exact ⟨rfl, rfl, rfl⟩
  · have hcat : ("cat ".data ++ target).length ≥ 4
        ∧ ("cat ".data ++ target).take 4 = "cat ".data :=
      ⟨cat_len4 target, cat_take4 target⟩
    have hhid : hasPre (("cat ".data ++ target).drop 4) ".".data = true := by
      rw [cat_drop4]
      exact hdot
    simp only [FP.step, hpm, Bool.false_eq_true, if_false]
    dsimp only [FP.onEnter, FP.enterChain, FP.chain1]
    rw [if_neg (cat_not_cd target), if_neg (cat_ne_ls target),
        if_neg (cat_ne_help target), if_neg (cat_ne_clear target),
        if_pos hcat, if_pos hhid,
        if_neg (show ¬((false : Bool) = true) by decide),
        if_pos (show (true : Bool) = true by rfl)]
    exact ⟨rfl, rfl, rfl⟩

/-- C2 amended witness: the theorem at target `.secret` from the initial
state (both conjuncts) and at the literal `..`, whose `cat` is denied. -/
theorem c2_amended_witness :
    ((FP.initialModel emptyFS).fileViewMode = false
      ∧ hasPre (".secret".data) (".".data) = true
      ∧ ".secret".data ≠ "..".data
      ∧ hasPre ("..".data) (".".data) = true)
    ∧ (FP.step emptyFS (FP.initialModel emptyFS)
        (.submit ("cd ".data ++ ".secret".data))).text = hiddenDirDeniedMsg
    ∧ (FP.step emptyFS (FP.initialModel emptyFS)
        (.submit ("cat ".data ++ ".secret".data))).fileViewMode = false
    ∧ (FP.step emptyFS (FP.initialModel emptyFS)
        (.submit ("cat ".data ++ "..".data))).text = hiddenFileDeniedMsg :=
  ⟨⟨rfl, by decide, by decide, by decide⟩,
   ((c2_amended emptyFS (FP.initialModel emptyFS) (".secret".data)
      rfl (by decide)).1 (by decide)).2.1,
   ((c2_amended emptyFS (FP.initialModel emptyFS) (".secret".data)
      rfl (by decide)).2).1,
   ((c2_amended emptyFS (FP.initialModel emptyFS) ("..".data)
      rfl (by decide)).2).2.1⟩

/-! ### C9 helpers -/

theorem lsLine_hidden (fs : FS) (s : Str) (e : DirEntry)
    (h : hasPre e.name (".".data) = true) : FP.lsLine fs s e = s := by
  dsimp only [FP.lsLine]
  rw [if_neg]
  intro hc
  exact hc h

theorem lsBody_filter_aux (fs : FS) :
    ∀ (entries : List DirEntry) (acc : Str),
      entries.foldl (FP.lsLine fs) acc
        = (entries.filter (fun e => !(hasPre e.name (".".data)))).foldl (FP.lsLine fs) acc := by
  intro entries
  induction entries with
  | nil => intro acc; rfl
  | cons e es ih =>
      intro acc
      by_cases h : hasPre e.name (".".data) = true
      · rw [List.foldl_cons, lsLine_hidden fs acc e h,
            List.filter_cons_of_neg (by simp [h]), ih]
      · rw [List.foldl_cons,
            List.filter_cons_of_pos (by simp [Bool.not_eq_true] at h; simp [h]),
            List.foldl_cons, ih]

theorem FP.lsBranch_ok (fs : FS) (m : Model) (entries : List DirEntry)
    (hread : fs.readDir m.directory = Except.ok entries) :
    FP.lsBranch fs m = { m with text := nameHeaderMsg ++ FP.lsBody fs entries } := by
  dsimp only [FP.lsBranch]
  rw [hread]

/-- C9: the file-picker `ls` output never includes a dot-prefixed entry:
the listing body is unchanged when hidden entries are filtered out of the
directory (each hidden entry contributes nothing), and whenever the listing
read succeeds the command renders exactly that body after the name header. -/
theorem c9_ls_hidden :
    (∀ (fs : FS) (entries : List DirEntry),
        FP.lsBody fs entries
          = FP.lsBody fs (entries.filter (fun e => !(hasPre e.name (".".data)))))
    ∧ (∀ (fs : FS) (m : Model) (entries : List DirEntry),
        m.fileViewMode = false →
        fs.readDir m.directory = Except.ok entries →
        (FP.step fs m (.submit ("ls".data))).text = nameHeaderMsg ++ FP.lsBody fs entries) := by
  constructor
  · intro fs entries
    exact lsBody_filter_aux fs entries []
  · intro fs m entries hpm hread
    simp only [FP.step, hpm, Bool.false_eq_true, if_false]
    dsimp only [FP.onEnter, FP.enterChain, FP.chain1]
    rw [if_neg (show ¬(List.length ['l', 's'] ≥ 3 ∧ List.take 3 ['l', 's'] = ['c', 'd', ' '])
          by decide),
        if_pos (show (['l', 's'] : Str) = ['l', 's'] from rfl),
        FP.lsBranch_ok fs
          { inputValue := ['l', 's'], startingpath := m.startingpath,
            directory := m.directory, text := ['l', 's'],
            history := m.history ++ [['l', 's']], historyIndex := -1,
            clihistory := m.clihistory, fileViewMode := false,
            fileContent := m.fileContent, quitting := m.quitting }
          entries hread]
    dsimp only [resetInput]
    rw [if_neg (show ¬((false : Bool) = true) by decide),
        if_neg (show ¬((false : Bool) = true) by decide),
        if_pos (show (['l', 's'] : Str) ≠ ['c', 'l', 'e', 'a', 'r'] by decide)]

/-- C9 witness: the theorem at a directory with entries
`README.md`, `.git`, `src` — the rendered body equals the body of the
filtered listing, and the `.git` entry does not appear. -/
theorem c9_ls_hidden_witness :
    ((FP.initialModel fsLs).fileViewMode = false
      ∧ fsLs.readDir (FP.initialModel fsLs).directory
          = Except.ok [⟨"README.md".data, false⟩, ⟨".git".data, true⟩, ⟨"src".data, true⟩])
    ∧ (FP.step fsLs (FP.initialModel fsLs) (.submit ("ls".data))).text
        = nameHeaderMsg ++ FP.lsBody fsLs
            [⟨"README.md".data, false⟩, ⟨".git".data, true⟩, ⟨"src".data, true⟩]
    ∧ FP.lsBody fsLs [⟨"README.md".data, false⟩, ⟨".git".data, true⟩, ⟨"src".data, true⟩]
        = FP.lsBody fsLs [⟨"README.md".data, false⟩, ⟨"src".data, true⟩] :=
  ⟨⟨rfl, by rfl⟩,
   c9_ls_hidden.2 fsLs (FP.initialModel fsLs)
     [⟨"README.md".data, false⟩, ⟨".git".data, true⟩, ⟨"src".data, true⟩] rfl (by rfl),
   by
     rw [c9_ls_hidden.1 fsLs
       [⟨"README.md".data, false⟩, ⟨".git".data, true⟩, ⟨"src".data, true⟩]]
     decide⟩

/-! ### C3: the autocomplete selection invariant -/

theorem selStep_inv (files : List Str) (w : Str) (seen : List Str) (best o : Str)
    (hne : ∀ x ∈ seen, x ≠ [])
    (h : SelOut files w seen best) :
    SelOut files w (seen ++ [o]) (FP.selStep files w best o) := by
  dsimp only [FP.selStep]
  by_cases hm : FP.cMatches w o = true
  · rw [if_pos hm]
    by_cases hb : best = []
    · rw [if_pos hb]
      rcases h with ⟨-, hnom⟩ | ⟨hmem, -, -, -⟩
      · refine Or.inr ⟨List.mem_append_right _ (List.mem_singleton_self o), hm, ?_, ?_⟩
        · intro _ x hx hxm _
          rcases List.mem_append.mp hx with hx | hx
          · exact absurd hxm (by rw [hnom x hx]; decide)
          · rw [List.mem_singleton.mp hx]
        · intro hof
          constructor
          · intro x hx hxm
            rcases List.mem_append.mp hx with hx | hx
            · exact absurd hxm (by rw [hnom x hx]; decide)
            · rw [List.mem_singleton.mp hx]; exact hof
          · intro x hx hxm
            rcases List.mem_append.mp hx with hx | hx
            · exact absurd hxm (by rw [hnom x hx]; decide)
            · rw [List.mem_singleton.mp hx]
      · exact absurd hb (hne best hmem)
    · rw [if_neg hb]
      rcases h with ⟨hbe, -⟩ | ⟨hmem, hbm, hfile, hnofile⟩
      · exact absurd hbe hb
      dsimp only [FP.matchStep]
      by_cases cf : files.contains o = true
      · by_cases bf : files.contains best = true
        · rw [if_neg (fun hc => hc.2 bf)]
          by_cases hlen : o.length < best.length
          · rw [if_pos ⟨cf, bf, hlen⟩]
            refine Or.inr ⟨List.mem_append_right _ (List.mem_singleton_self o), hm, ?_, ?_⟩
            · intro _ x hx hxm hxf
              rcases List.mem_append.mp hx with hx | hx
              · exact le_trans (le_of_lt hlen) (hfile bf x hx hxm hxf)
              · rw [List.mem_singleton.mp hx]
            · intro hof
              exact absurd cf (by rw [hof]; decide)
          · rw [if_neg (by intro hc; exact hlen hc.2.2),
                if_neg (by intro hc; exact hc.1 cf)]
            refine Or.inr ⟨List.mem_append_left _ hmem, hbm, ?_, ?_⟩
            · intro hbf x hx hxm hxf
              rcases List.mem_append.mp hx with hx | hx
              · exact hfile hbf x hx hxm hxf
              · rw [List.mem_singleton.mp hx]; omega
            · intro hbf
              exact absurd bf (by rw [hbf]; decide)
        · rw [if_pos ⟨cf, bf⟩]
          have hnof := hnofile (by revert bf; cases files.contains best <;> simp)
          refine Or.inr ⟨List.mem_append_right _ (List.mem_singleton_self o), hm, ?_, ?_⟩
          · intro _ x hx hxm hxf
            rcases List.mem_append.mp hx with hx | hx
            · exact absurd hxf (by rw [hnof.1 x hx hxm]; decide)
            · rw [List.mem_singleton.mp hx]
          · intro hof
            exact absurd cf (by rw [hof]; decide)
      · by_cases bf : files.contains best = true
        · rw [if_neg (by intro hc; exact cf hc.1),
              if_neg (by intro hc; exact cf hc.1),
              if_neg (by intro hc; exact hc.2.1 bf)]
          refine Or.inr ⟨List.mem_append_left _ hmem, hbm, ?_, ?_⟩
          · intro hbf x hx hxm hxf
            rcases List.mem_append.mp hx with hx | hx
            · exact hfile hbf x hx hxm hxf
            · rw [List.mem_singleton.mp hx] at hxf
              exact absurd hxf cf
          · intro hbf
            exact absurd bf (by rw [hbf]; decide)
        · have hnof := hnofile (by revert bf; cases files.contains best <;> simp)
          rw [if_neg (by intro hc; exact cf hc.1),
              if_neg (by intro hc; exact cf hc.1)]
          by_cases hlen : o.length < best.length
          · rw [if_pos ⟨by revert cf; cases files.contains o <;> simp,
                        by revert bf; cases files.contains best <;> simp, hlen⟩]
            refine Or.inr ⟨List.mem_append_right _ (List.mem_singleton_self o), hm, ?_, ?_⟩
            · intro hof
              exact absurd hof (by revert cf; cases files.contains o <;> simp)
            · intro _
              constructor
              · intro x hx hxm
                rcases List.mem_append.mp hx with hx | hx
                · exact hnof.1 x hx hxm
                · rw [List.mem_singleton.mp hx]
                  revert cf; cases files.contains o <;> simp
              · intro x hx hxm
                rcases List.mem_append.mp hx with hx | hx
                · exact le_trans (le_of_lt hlen) (hnof.2 x hx hxm)
                · rw [List.mem_singleton.mp hx]
          · rw [if_neg (by intro hc; exact hlen hc.2.2)]
            refine Or.inr ⟨List.mem_append_left _ hmem, hbm, ?_, ?_⟩
            · intro hbf
              exact absurd hbf (by revert bf; cases files.contains best <;> simp)
            · intro _
              constructor
              · intro x hx hxm
                rcases List.mem_append.mp hx with hx | hx
                · exact hnof.1 x hx hxm
                · rw [List.mem_singleton.mp hx]
                  revert cf; cases files.contains o <;> simp
              · intro x hx hxm
                rcases List.mem_append.mp hx with hx | hx
                · exact hnof.2 x hx hxm
                · rw [List.mem_singleton.mp hx]; omega
  · rw [if_neg hm]
    rcases h with ⟨hbe, hnom⟩ | ⟨hmem, hbm, hfile, hnofile⟩
    · refine Or.inl ⟨hbe, ?_⟩
      intro x hx
      rcases List.mem_append.mp hx with hx | hx
      · exact hnom x hx
      · rw [List.mem_singleton.mp hx]
        revert hm; cases FP.cMatches w o <;> simp
    · refine Or.inr ⟨List.mem_append_left _ hmem, hbm, ?_, ?_⟩
      · intro hbf x hx hxm hxf
        rcases List.mem_append.mp hx with hx | hx
        · exact hfile hbf x hx hxm hxf
        · rw [List.mem_singleton.mp hx] at hxm; exact absurd hxm hm
      · intro hbf
        have hn := hnofile hbf
        constructor
        · intro x hx hxm
          rcases List.mem_append.mp hx with hx | hx
          · exact hn.1 x hx hxm
          · rw [List.mem_singleton.mp hx] at hxm; exact absurd hxm hm
        · intro x hx hxm
          rcases List.mem_append.mp hx with hx | hx
          · exact hn.2 x hx hxm
          · rw [List.mem_singleton.mp hx] at hxm; exact absurd hxm hm

theorem selFold_inv (files : List Str) (w : Str) :
    ∀ (L seen : List Str) (best : Str),
      (∀ x ∈ seen, x ≠ []) → (∀ x ∈ L, x ≠ []) →
      SelOut files w seen best →
      SelOut files w (seen ++ L) (L.foldl (FP.selStep files w) best) := by
  intro L
  induction L with
  | nil =>
      intro seen best h1 _ h
      simpa using h
  | cons o L ih =>
      intro seen best h1 h2 h
      have hstep := selStep_inv files w seen best o h1 h
      have hseen : ∀ x ∈ seen ++ [o], x ≠ [] := by
        intro x hx
        rcases List.mem_append.mp hx with hx | hx
        · exact h1 x hx
        · rw [List.mem_singleton.mp hx]
          exact h2 o (List.mem_cons_self o L)
      have := ih (seen ++ [o]) (FP.selStep files w best o) hseen
        (fun x hx => h2 x (List.mem_cons_of_mem o hx)) hstep
      rw [List.append_assoc] at this
      simpa using this

/-- C3: the autocomplete tie-break.  Over any candidate list
`commands ++ files` of nonempty names and any partial token `w`: if some
case-insensitive prefix match is a directory entry, the chosen completion is
a matching directory entry of minimal length among matching entries
(an entry beats a command name); if no match is an entry but some candidate
matches, the choice is a matching candidate of minimal length.  In
particular, with candidates `{config.go, contact}` and partial token `co`,
the completion is `config.go`. -/
theorem c3_tiebreak :
    (∀ (commands files : List Str) (w : Str),
      (∀ x ∈ commands ++ files, x ≠ []) →
      ((∃ o ∈ commands ++ files, FP.cMatches w o = true ∧ files.contains o = true) →
          FP.bestMatchFor (commands ++ files) files w ∈ commands ++ files
          ∧ FP.cMatches w (FP.bestMatchFor (commands ++ files) files w) = true
          ∧ files.contains (FP.bestMatchFor (commands ++ files) files w) = true
          ∧ ∀ o ∈ commands ++ files, FP.cMatches w o = true → files.contains o = true →
              (FP.bestMatchFor (commands ++ files) files w).length ≤ o.length)
      ∧ ((∀ o ∈ commands ++ files, FP.cMatches w o = true → files.contains o = false) →
         (∃ o ∈ commands ++ files, FP.cMatches w o = true) →
          FP.bestMatchFor (commands ++ files) files w ∈ commands ++ files
          ∧ FP.cMatches w (FP.bestMatchFor (commands ++ files) files w) = true
          ∧ ∀ o ∈ commands ++ files, FP.cMatches w o = true →
              (FP.bestMatchFor (commands ++ files) files w).length ≤ o.length))
    ∧ FP.bestMatchFor ["contact".data, "config.go".data] ["config.go".data] "co".data
        = "config.go".data := by
  constructor
  · intro commands files w hne
    have hsel0 := selFold_inv files w (commands ++ files) [] [] (by simp) hne
      (Or.inl ⟨rfl, by simp⟩)
    rw [List.nil_append] at hsel0
    have hsel : SelOut files w (commands ++ files)
        (FP.bestMatchFor (commands ++ files) files w) := hsel0
    constructor
    · rintro ⟨o, ho, hom, hof⟩
      rcases hsel with ⟨-, hnom⟩ | ⟨hmem, hbm, hfile, hnofile⟩
      · exact absurd hom (by rw [hnom o ho]; decide)
      by_cases hbf : files.contains (FP.bestMatchFor (commands ++ files) files w) = true
      · exact ⟨hmem, hbm, hbf, hfile hbf⟩
      · have hbf' : files.contains (FP.bestMatchFor (commands ++ files) files w) = false := by
          revert hbf
          cases files.contains (FP.bestMatchFor (commands ++ files) files w) <;> simp
        have := (hnofile hbf').1 o ho hom
        exact absurd hof (by rw [this]; decide)
    · rintro hallcmd ⟨o, ho, hom⟩
      rcases hsel with ⟨-, hnom⟩ | ⟨hmem, hbm, hfile, hnofile⟩
      · exact absurd hom (by rw [hnom o ho]; decide)
      by_cases hbf : files.contains (FP.bestMatchFor (commands ++ files) files w) = true
      · exact absurd hbf (by rw [hallcmd _ hmem hbm]; decide)
      · have hbf' : files.contains (FP.bestMatchFor (commands ++ files) files w) = false := by
          revert hbf
          cases files.contains (FP.bestMatchFor (commands ++ files) files w) <;> simp
        exact ⟨hmem, hbm, (hnofile hbf').2⟩
  · decide

/-- C3 witness: the general tie-break statement applied at the concrete
regression candidates, where the entry `config.go` matches. -/
theorem c3_tiebreak_witness :
    ((∀ x ∈ ["contact".data] ++ ["config.go".data], x ≠ ([] : Str))
      ∧ "config.go".data ∈ ["contact".data] ++ ["config.go".data]
      ∧ FP.cMatches ("co".data) ("config.go".data) = true
      ∧ (["config.go".data] : List Str).contains ("config.go".data) = true)
    ∧ (["config.go".data] : List Str).contains
        (FP.bestMatchFor (["contact".data] ++ ["config.go".data]) ["config.go".data] "co".data)
        = true :=
  ⟨⟨by decide, by decide, by decide, by decide⟩,
   ((c3_tiebreak.1 ["contact".data] ["config.go".data] "co".data (by decide)).1
     ⟨"config.go".data, by decide, by decide, by decide⟩).2.2.1⟩

/-! ### C1: path building and resolution lemmas -/

theorem joinSlash_cons_cons (a b : Str) (l : List Str) :
    joinSlash (a :: b :: l) = a ++ '/' :: joinSlash (b :: l) := by
  dsimp only [joinSlash, List.intercalate]
  rw [List.intersperse_cons_cons]
  simp

theorem joinSlash_singleton (a : Str) : joinSlash [a] = a := by
  dsimp only [joinSlash, List.intercalate]
  simp

theorem joinSlash_append_single (a : Str) (l : List Str) (t : Str) :
    joinSlash ((a :: l) ++ [t]) = joinSlash (a :: l) ++ '/' :: t := by
  induction l generalizing a with
  | nil => rw [List.cons_append, List.nil_append, joinSlash_cons_cons,
               joinSlash_singleton, joinSlash_singleton]
  | cons b l ih =>
      calc joinSlash ((a :: b :: l) ++ [t])
          = a ++ '/' :: joinSlash ((b :: l) ++ [t]) := joinSlash_cons_cons a b (l ++ [t])
        _ = a ++ '/' :: (joinSlash (b :: l) ++ '/' :: t) := by rw [ih b]
        _ = (a ++ '/' :: joinSlash (b :: l)) ++ '/' :: t := by simp
        _ = joinSlash (a :: b :: l) ++ '/' :: t := by rw [joinSlash_cons_cons a b l]

theorem splitSlash_joinSlash (xs : List Str) (h : ∀ s ∈ xs, '/' ∉ s) (hx : xs ≠ []) :
    splitSlash (joinSlash xs) = xs := by
  dsimp only [splitSlash, joinSlash]
  exact List.splitOn_intercalate xs '/' h hx

theorem ups_zero (segs : List Str) :
    ∀ (n : Nat) (st : List Str), (∀ s ∈ segs, s ≠ "..".data) →
      (segs.foldl resolveStep (n, st)).1 = n := by
  induction segs with
  | nil => intro n st _; rfl
  | cons s segs ih =>
      intro n st h
      rw [List.foldl_cons]
      have hs : s ≠ "..".data := h s (List.mem_cons_self s segs)
      dsimp only [resolveStep]
      by_cases hdot : s = ".".data ∨ s = []
      · rw [if_pos hdot]
        exact ih n st (fun x hx => h x (List.mem_cons_of_mem s hx))
      · rw [if_neg hdot, if_neg hs]
        exact ih n (s :: st) (fun x hx => h x (List.mem_cons_of_mem s hx))

theorem gooddir_no_ancestor (d : Str) (h : GoodDir d) :
    resolvesToAncestor d = false := by
  obtain ⟨rest, hd, hsegs⟩ := h
  have hnos : ∀ s ∈ ".".data :: rest, '/' ∉ s := by
    intro s hs
    rcases List.mem_cons.mp hs with hs | hs
    · rw [hs]; decide
    · exact (hsegs s hs).1
  have hsplit : splitSlash d = ".".data :: rest := by
    rw [hd]
    exact splitSlash_joinSlash _ hnos (List.cons_ne_nil _ _)
  have hups : (resolvePath d).1 = 0 := by
    dsimp only [resolvePath]
    rw [hsplit, List.foldl_cons]
    have hstep : resolveStep (0, []) (".".data) = (0, []) := by decide
    rw [hstep]
    exact ups_zero rest 0 [] (fun s hs => (hsegs s hs).2)
  apply decide_eq_false
  rintro ⟨h1, -⟩
  rw [hups] at h1
  exact absurd h1 (by decide)

theorem gooddir_root : GoodDir (".".data) := by
  refine ⟨[], ?_, by simp⟩
  rw [joinSlash_singleton]

theorem FP.cdBranch_sandbox (fs : FS) (m : Model)
    (hsp : m.startingpath = ".".data) (hgd : GoodDir m.directory)
    (hns : '/' ∉ m.text.drop 3) :
    GoodDir (FP.cdBranch fs m).directory := by
  obtain ⟨rest, hd, hsegs⟩ := hgd
  have hnos : ∀ s ∈ ".".data :: rest, '/' ∉ s := by
    intro s hs
    rcases List.mem_cons.mp hs with hs | hs
    · rw [hs]; decide
    · exact (hsegs s hs).1
  have hsplit : splitSlash m.directory = ".".data :: rest := by
    rw [hd]
    exact splitSlash_joinSlash _ hnos (List.cons_ne_nil _ _)
  dsimp only [FP.cdBranch]
  split
  · split
    · rename_i hguard hdd
      rw [hsplit]
      split
      · rename_i hlen
        have hrest : rest ≠ [] := by
          intro hnil
          rw [hnil] at hlen
          exact absurd hlen (by decide)
        dsimp only
        rw [List.dropLast_cons_of_ne_nil hrest]
        exact ⟨rest.dropLast, rfl, fun s hs => hsegs s (List.dropLast_subset rest hs)⟩
      · dsimp only
        rw [hsp]
        exact gooddir_root
    · split
      · exact ⟨rest, hd, hsegs⟩
      · split
        · rename_i hguard hdd hhid hstat
          dsimp only
          refine ⟨rest ++ [m.text.drop 3], ?_, ?_⟩
          · rw [show (".".data :: (rest ++ [m.text.drop 3]))
                  = (".".data :: rest) ++ [m.text.drop 3] from rfl,
                joinSlash_append_single, ← hd, List.append_assoc]
            rfl
          · intro s hs
            rcases List.mem_append.mp hs with hs | hs
            · exact hsegs s hs
            · rw [List.mem_singleton.mp hs]
              exact ⟨hns, hdd⟩
        · exact ⟨rest, hd, hsegs⟩
  · exact ⟨rest, hd, hsegs⟩

theorem FP.chain1_sandbox (fs : FS) (line : Str) (m : Model) (r : FP.ChainOut)
    (htext : m.text = line)
    (hsp : m.startingpath = ".".data) (hgd : GoodDir m.directory)
    (hns : line.take 3 = "cd ".data → '/' ∉ line.drop 3)
    (hrest : GoodDir (r.m).directory) :
    GoodDir (FP.chain1 fs line m r).m.directory := by
  dsimp only [FP.chain1, resetInput]
  split
  · rename_i hcd
    dsimp only
    apply FP.cdBranch_sandbox fs m hsp hgd
    rw [htext]
    exact hns hcd.2
  · split
    · dsimp only
      rw [(FP.lsBranch_keeps fs m).1]
      exact hgd
    · split
      · exact hgd
      · split
        · exact hgd
        · split
          · split
            · exact hgd
            · split
              · exact hgd
              · exact hgd
          · exact hrest

theorem FP.enterChain_sandbox (fs : FS) (m : Model)
    (hsp : m.startingpath = ".".data) (hgd : GoodDir m.directory)
    (hns : m.inputValue.take 3 = "cd ".data → '/' ∉ m.inputValue.drop 3) :
    GoodDir (FP.enterChain fs m).m.directory := by
  dsimp only [FP.enterChain]
  have h4 := FP.chain4_keeps fs m.inputValue
    { m with text := m.inputValue, history := m.history ++ [m.inputValue], historyIndex := -1 }
  have h3 := FP.chain3_keeps fs m.inputValue
    { m with text := m.inputValue, history := m.history ++ [m.inputValue], historyIndex := -1 }
    _ ⟨h4.1, h4.2.1, h4.2.2.1, h4.2.2.2⟩
  have h2 := FP.chain2_keeps fs m.inputValue
    { m with text := m.inputValue, history := m.history ++ [m.inputValue], historyIndex := -1 }
    _ ⟨h3.1, h3.2.1, h3.2.2.1, h3.2.2.2⟩
  exact FP.chain1_sandbox fs m.inputValue
    { m with text := m.inputValue, history := m.history ++ [m.inputValue], historyIndex := -1 }
    _ rfl hsp hgd hns (by rw [h2.2.2.2]; exact hgd)

theorem FP.onEnter_keeps (fs : FS) (m : Model) :
    (FP.onEnter fs m).directory = (FP.enterChain fs m).m.directory
    ∧ (FP.onEnter fs m).startingpath = (FP.enterChain fs m).m.startingpath := by
  dsimp only [FP.onEnter]
  split
  · exact ⟨rfl, rfl⟩
  · split
    · exact ⟨rfl, rfl⟩
    · split
      · exact ⟨rfl, rfl⟩
      · exact ⟨rfl, rfl⟩

theorem FP.step_sandbox (fs : FS) (m : Model) (e : Ev)
    (hsp : m.startingpath = ".".data) (hgd : GoodDir m.directory)
    (he : ∀ l, e = Ev.submit l → l.take 3 = "cd ".data → '/' ∉ l.drop 3) :
    (FP.step fs m e).startingpath = ".".data ∧ GoodDir (FP.step fs m e).directory := by
  cases e with
  | submit line =>
      dsimp only [FP.step]
      split
      · exact ⟨hsp, hgd⟩
      · constructor
        · rw [(FP.onEnter_keeps fs _).2, (FP.enterChain_cursor fs _).2.2]
          exact hsp
        · rw [(FP.onEnter_keeps fs _).1]
          exact FP.enterChain_sandbox fs _ hsp hgd (he line rfl)
  | up =>
      dsimp only [FP.step]
      split
      · exact ⟨hsp, hgd⟩
      · rw [(FP.onUp_keeps m).2.1, (FP.onUp_keeps m).2.2.1]
        exact ⟨hsp, hgd⟩
  | down =>
      dsimp only [FP.step]
      split
      · exact ⟨hsp, hgd⟩
      · rw [(FP.onDown_keeps m).2.1, (FP.onDown_keeps m).2.2.1]
        exact ⟨hsp, hgd⟩
  | esc =>
      dsimp only [FP.step]
      split
      · exact ⟨hsp, hgd⟩
      · exact ⟨hsp, hgd⟩

theorem FP.run_sandbox (fs : FS) (evs : List Ev) :
    ∀ (m : Model),
      m.startingpath = ".".data → GoodDir m.directory →
      (∀ l, Ev.submit l ∈ evs → l.take 3 = "cd ".data → '/' ∉ l.drop 3) →
      (FP.run fs m evs).startingpath = ".".data ∧ GoodDir (FP.run fs m evs).directory := by
  induction evs with
  | nil => intro m hsp hgd _; exact ⟨hsp, hgd⟩
  | cons e evs ih =>
      intro m hsp hgd hl
      have hstep := FP.step_sandbox fs m e hsp hgd
        (fun l hle => hl l (by rw [← hle]; exact List.mem_cons_self e evs))
      exact ih (FP.step fs m e) hstep.1 hstep.2
        (fun l hle => hl l (List.mem_cons_of_mem e hle))

theorem FP.onEnter_cd (fs : FS) (m : Model) (t : Str)
    (hiv : m.inputValue = "cd ".data ++ t) :
    (FP.onEnter fs m).directory
      = (FP.cdBranch fs
          { m with text := "cd ".data ++ t,
                   history := m.history ++ ["cd ".data ++ t],
                   historyIndex := -1 }).directory := by
  have hcd : ("cd ".data ++ t).length ≥ 3 ∧ ("cd ".data ++ t).take 3 = "cd ".data :=
    ⟨cd_len3 t, cd_take3 t⟩
  dsimp only [FP.onEnter, FP.enterChain, FP.chain1]
  rw [hiv, if_pos hcd]
  dsimp only [resetInput]
  rw [if_neg (show ¬((false : Bool) = true) by decide),
      if_neg (show ¬((false : Bool) = true) by decide),
      if_pos (cd_ne_clear t)]

theorem FP.cdBranch_dotdot_root (fs : FS) (m : Model)
    (htext : m.text = "cd ..".data) (hdir : m.directory = ".".data)
    (hsp : m.startingpath = ".".data) :
    (FP.cdBranch fs m).directory = ".".data := by
  dsimp only [FP.cdBranch]
  rw [htext, hdir]
  exact hsp

theorem FP.run_dotdot (fs : FS) (evs : List Ev) :
    ∀ (m : Model), m.directory = ".".data → m.startingpath = ".".data →
      (∀ e ∈ evs, e = Ev.submit ("cd ..".data)) →
      (FP.run fs m evs).directory = ".".data
      ∧ (FP.run fs m evs).startingpath = ".".data := by
  induction evs with
  | nil => intro m hdir hsp _; exact ⟨hdir, hsp⟩
  | cons e evs ih =>
      intro m hdir hsp hl
      have he : e = Ev.submit ("cd ..".data) := hl e (List.mem_cons_self e evs)
      subst he
      have htail : ∀ e ∈ evs, e = Ev.submit ("cd ..".data) :=
        fun e he => hl e (List.mem_cons_of_mem _ he)
      apply ih
      · dsimp only [FP.run, List.foldl_cons] at *
        dsimp only [FP.step]
        split
        · exact hdir
        · rw [FP.onEnter_cd fs _ ("..".data) rfl]
          exact FP.cdBranch_dotdot_root fs _ rfl hdir hsp
      · dsimp only [FP.step]
        split
        · exact hsp
        · rw [(FP.onEnter_keeps fs _).2, (FP.enterChain_cursor fs _).2.2]
          exact hsp
      · exact htail

/-- C1 counterexample: with the backing store answering — as a real disk
does, since `os.Stat` resolves `..` segments — that `./foo/../../..` is an
existing directory, the single submitted line `cd foo/../../..` drives the
file-picker session to a current directory that resolves to a strict
ancestor of the sandbox root, refuting the claimed invariant for targets
with `/` segments. -/
theorem c1_counterexample :
    (FP.run fsEscape (FP.initialModel fsEscape)
        [.submit ("cd foo/../../..".data)]).directory = "./foo/../../..".data
    ∧ resolvesToAncestor
        (FP.run fsEscape (FP.initialModel fsEscape)
          [.submit ("cd foo/../../..".data)]).directory = true := by
  constructor <;> decide

/-- C1 amended: the `cd ..` half of the claim holds — any sequence consisting
solely of `cd ..` submissions keeps the current directory at the root — and
for session event sequences whose `cd` targets contain no `/` separator the
current directory never resolves to an ancestor of the sandbox root; a `cd`
target containing `/` (see the counterexample) can escape. -/
theorem c1_amended :
    (∀ (fs : FS) (evs : List Ev),
      (∀ e ∈ evs, e = Ev.submit ("cd ..".data)) →
      (FP.run fs (FP.initialModel fs) evs).directory = ".".data)
    ∧ (∀ (fs : FS) (evs : List Ev),
      (∀ l, Ev.submit l ∈ evs → l.take 3 = "cd ".data → '/' ∉ l.drop 3) →
      resolvesToAncestor (FP.run fs (FP.initialModel fs) evs).directory = false) := by
  constructor
  · intro fs evs h
    exact (FP.run_dotdot fs evs (FP.initialModel fs) rfl rfl h).1
  · intro fs evs h
    exact gooddir_no_ancestor _
      (FP.run_sandbox fs evs (FP.initialModel fs) rfl gooddir_root h).2

/-- C1 amended witness: two `cd ..` at the root stay at the root, and the
session `cd docs` then `cd ..` (slash-free targets) never resolves above the
root. -/
theorem c1_amended_witness :
    (FP.run emptyFS (FP.initialModel emptyFS)
        [.submit ("cd ..".data), .submit ("cd ..".data)]).directory = ".".data
    ∧ resolvesToAncestor
        (FP.run fsDocs (FP.initialModel fsDocs)
          [.submit ("cd docs".data), .submit ("cd ..".data)]).directory = false :=
  ⟨c1_amended.1 emptyFS _ (by decide),
   c1_amended.2 fsDocs _ (by
      intro l hl htake
      rcases List.mem_cons.mp hl with h | h
      · cases h
        decide
      · rcases List.mem_cons.mp h with h | h
        · cases h
          decide
        · exact absurd h (List.not_mem_nil _))⟩

/-- C4 witness: the recall invariant evaluated after a concrete session of
two submissions and three recall steps. -/
theorem c4_history_recall_witness :
    HistInv (FP.run emptyFS (FP.initialModel emptyFS)
      [.submit ("pwd".data), .submit ("ls".data), .up, .up, .down]) :=
  c4_history_recall.1 emptyFS
    [.submit ("pwd".data), .submit ("ls".data), .up, .up, .down]
